import Mathlib

/-!
Verification development for the `lz` directory-listing tool
(single source file `src/main.rs`).

The filesystem-independent core of the program is embedded shallowly:

* entry records (`EntryInfo`) and the comparator/sort policy
  (`cmpEntries`, `sort_entries`) of `sort_entries` in the source;
* an in-memory directory snapshot (`FsTree`) over which the tree
  assembler (`collect_tree_children`, `subtree_has_printables`,
  `build_display_entries_for_dir`), the filter predicate
  (`should_print_entry`, `normalize_match_path`) and the summary
  aggregator (`walk_summary_dir`, `add_extension_stat`) are replayed;
* the size formatter `format_size` (the `f64` value of the source's
  division loop is tracked exactly, see the doc comments there);
* the structured-output record builder `DisplayEntry.to_json`;
* the interactive navigator transitions (`interactive_reload_fs`,
  `interactive_open_or_select_fs`, ...) over an abstract fallible
  filesystem oracle `SimFs`, with explicit state passing in place of
  the source's in-place mutation of the `cursive` user data.

Rust machine integers (`u64`, `usize`) are modelled as `Nat`: none of
the embedded code paths can overflow behaviour observed by the claims
(sizes are only added and compared).  `OsString` values are modelled as
`String` (the source immediately passes them through
`to_string_lossy`).  The glob matcher compiled by the external
`globset` crate is kept abstract as an optional `String → Bool`
function, exactly the interface `should_print_entry` consumes.
-/

namespace Lz

/-- Sort keys of the `--sort` option (`SortKey` in the source). -/
inductive SortKey where
  | name
  | size
  | age
deriving DecidableEq, Repr

/-- Kind of a filesystem entry, as read from `fs::FileType` in the
source: `is_dir`, `is_file`, `is_symlink`, or none of those. -/
inductive EntryKind where
  | dir
  | regFile
  | symlink
  | other
deriving DecidableEq, Repr

/-- Kind of a non-directory leaf entry; used by `FsTree` so that a
tree node is a directory if and only if it carries a children list. -/
inductive LeafKind where
  | regFile
  | symlink
  | other
deriving DecidableEq, Repr

def LeafKind.toEntryKind : LeafKind → EntryKind
  | .regFile => .regFile
  | .symlink => .symlink
  | .other => .other

/-- Model of `EntryInfo` in the source: one raw entry record.  `len` is
`metadata.len()`; `modified` is the optional modification timestamp
(`metadata.modified().ok()`), modelled as a `Nat` instant. -/
structure EntryInfo where
  name : String
  kind : EntryKind
  len : Nat
  modified : Option Nat
deriving DecidableEq, Repr

/-- Model of `EntryInfo::is_dir` in the source (`file_type.is_dir()`). -/
def EntryInfo.is_dir (e : EntryInfo) : Bool :=
  e.kind = EntryKind.dir

/-- Model of `EntryInfo::size` in the source: `metadata.len()` for regular
files, `0` otherwise. -/
def EntryInfo.size (e : EntryInfo) : Nat :=
  if e.kind = EntryKind.regFile then e.len else 0

/-- The subset of `ListOptions` consumed by the embedded core
(enumeration, filtering, sorting, tree assembly, aggregation).  The
purely cosmetic flags (`long`, `icons`, `rainbow`, `json`, `human`,
`du`, `extensions`, `watch`) only select output formatting in the
source and are not needed by any embedded function; `human` is passed
to `format_size` directly as an argument, as in the source. -/
structure ListOptions where
  all : Bool
  tree : Bool
  only_dirs : Bool
  only_files : Bool
  sort : SortKey
  reverse : Bool
deriving DecidableEq, Repr

/-! ### Comparators

Rust `Ord::cmp` on the primitive types involved is modelled by
explicit `Ordering`-valued comparison functions. -/

/-- Rust `u64::cmp` (and `usize::cmp`): `Less` if `a < b`, `Equal`
if `a = b`, `Greater` otherwise. -/
def natCmp (a b : Nat) : Ordering :=
  if a < b then .lt else if a = b then .eq else .gt

/-- Rust `bool::cmp` (`false < true`). -/
def boolCmp (a b : Bool) : Ordering :=
  natCmp a.toNat b.toNat

/-- Rust `char::cmp` (by scalar value). -/
def charCmp (a b : Char) : Ordering :=
  natCmp a.toNat b.toNat

/-- Lexicographic comparison of char sequences: Rust `str::cmp` is
byte-lexicographic on UTF-8, which coincides with scalar-value
lexicographic comparison of the character sequences. -/
def listCmp : List Char → List Char → Ordering
  | [], [] => .eq
  | [], _ :: _ => .lt
  | _ :: _, [] => .gt
  | a :: as, b :: bs => (charCmp a b).then (listCmp as bs)

/-- Rust `String::cmp`. -/
def strCmp (a b : String) : Ordering :=
  listCmp a.data b.data

/-- Rust `Option::cmp` on `Option<SystemTime>`: `None` is less than
any `Some`, two `Some`s compare by contents. -/
def optCmp : Option Nat → Option Nat → Ordering
  | none, none => .eq
  | none, some _ => .lt
  | some _, none => .gt
  | some a, some b => natCmp a b

/-- Rust `str::to_lowercase` as used by the Name comparator: modelled
as ASCII case folding (`Char.toLower`) applied character-wise, which
agrees with the source's Unicode lowercasing on all ASCII names.
(`String.toLower` is extensionally this same map; the plain character
map is used because its evaluation is kernel-friendly.) -/
def to_lowercase (s : String) : String :=
  String.mk (s.data.map Char.toLower)

/-- The comparator closure of `sort_entries` in the source:

* directory-ness first: `b.is_dir().cmp(&a.is_dir())`, returned
  immediately when not `Equal`;
* then the key comparison (`Name`: case-insensitive lexical on the
  name, `Size`: descending by `size()`, `Age`: descending by
  `modified`);
* `reverse` inverts the key comparison only (`cmp.reverse()` is
  `Ordering.swap`). -/
def cmpEntries (key : SortKey) (rev : Bool) (a b : EntryInfo) : Ordering :=
  let dirCmp := boolCmp b.is_dir a.is_dir
  if dirCmp ≠ .eq then dirCmp
  else
    let c :=
      match key with
      | .name => strCmp (to_lowercase a.name) (to_lowercase b.name)
      | .size => natCmp b.size a.size
      | .age => optCmp b.modified a.modified
    if rev then c.swap else c

/-- The `≤` relation induced by the comparator: Rust's stable
`sort_by` orders the slice so that consecutive elements never compare
`Greater`. -/
def entryLE (key : SortKey) (rev : Bool) (a b : EntryInfo) : Bool :=
  cmpEntries key rev a b ≠ .gt

/-- Model of `sort_entries` in the source.  `slice::sort_by` is a stable sort
by the comparator; it is modelled by `List.insertionSort` with the
induced `≤` relation, which is also stable. -/
def sort_entries (l : List EntryInfo) (key : SortKey) (rev : Bool) : List EntryInfo :=
  List.insertionSort (fun a b => entryLE key rev a b = true) l

/-! ### In-memory directory snapshots -/

/-- An in-memory snapshot of a directory tree, playing the role of the
read-only filesystem oracle the recursive algorithms query.  A node is
a directory exactly when it is built with `dir`, mirroring the fact
that the source only recurses into entries whose `file_type.is_dir()`
holds.  Directory `len` is irrelevant (`EntryInfo::size` returns `0`
for non-regular-files) and fixed to `0`. -/
inductive FsTree where
  | file (name : String) (kind : LeafKind) (len : Nat) (modified : Option Nat)
  | dir (name : String) (modified : Option Nat) (children : List FsTree)

def FsTree.name : FsTree → String
  | .file n _ _ _ => n
  | .dir n _ _ => n

def FsTree.children : FsTree → List FsTree
  | .file _ _ _ _ => []
  | .dir _ _ cs => cs

/-- The `EntryInfo` record the source's `read_entries` would build for
this node. -/
def FsTree.info : FsTree → EntryInfo
  | .file n k len m => ⟨n, k.toEntryKind, len, m⟩
  | .dir n m _ => ⟨n, .dir, 0, m⟩

def FsTree.is_dir (t : FsTree) : Bool :=
  t.info.is_dir

/-- Model of `is_hidden` in the source: `s.starts_with('.')`, i.e. the first
character of the (lossily decoded) name is a dot. -/
def is_hidden (name : String) : Bool :=
  match name.data with
  | [] => false
  | c :: _ => c = '.'

/-- Model of `read_entries` in the source, restricted to the in-memory
snapshot: the immediate children of a directory, hidden entries
excluded unless `all` is set.  (The `IoError` failure paths of the
real `read_dir` are modelled separately by `SimFs` for the interactive
navigator; an `FsTree` is by construction a successful read.) -/
def read_entries (children : List FsTree) (all : Bool) : List FsTree :=
  children.filter (fun c => all || !is_hidden c.name)

/-- Sorting a directory's children: the source sorts the `EntryInfo`
records; on the snapshot the same comparator is applied through
`FsTree.info`. -/
def sort_trees (o : ListOptions) (l : List FsTree) : List FsTree :=
  List.insertionSort (fun a b => entryLE o.sort o.reverse a.info b.info = true) l

/-! ### Filter predicate -/

/-- Display form of a root-relative path (components joined by the
platform separator, here `/`). -/
def path_display (p : List String) : String :=
  String.intercalate "/" p

/-- Model of `normalize_match_path` in the source:
`path.to_string_lossy().replace('\\', "/")`.  Replacing every
occurrence of the single character `'\\'` by the single-character
string `"/"` is exactly a character-wise map. -/
def normalize_match_path (p : List String) : String :=
  String.mk ((path_display p).data.map (fun c => if c = '\\' then '/' else c))

/-- Model of `should_print_entry` in the source: the filter predicate deciding
direct visibility of one entry given its root-relative path. -/
def should_print_entry (e : EntryInfo) (rel : List String) (o : ListOptions)
    (matcher : Option (String → Bool)) : Bool :=
  if o.only_dirs && !e.is_dir then false
  else if o.only_files && e.is_dir then false
  else
    match matcher with
    | none => true
    | some m => m (normalize_match_path rel)

/-! ### Tree assembly -/

/-- Size bookkeeping for the recursive tree algorithms: a node's
children list is smaller than the node. -/
theorem FsTree.sizeOf_children_le (t : FsTree) : sizeOf t.children ≤ sizeOf t := by
  cases t <;> (simp [FsTree.children]; try omega)

/-- Heterogeneous `any`-over-`map` (the library lemma is stated for an
endomap only). -/
theorem list_any_map {α β : Type _} (f : α → β) (l : List α) (p : β → Bool) :
    (l.map f).any p = l.any (fun a => p (f a)) := by
  induction l with
  | nil => rfl
  | cons a l ih => simp [List.any_cons, ih]

/-- Eliminating `List.attach` from an `any` whose body only uses the
value. -/
theorem attach_any_eq {α : Type _} (l : List α) (g : α → Bool) :
    l.attach.any (fun x => g x.1) = l.any g :=
  calc l.attach.any (fun x => g x.1)
      = (l.attach.map Subtype.val).any g := (list_any_map _ _ _).symm
    _ = l.any g := by rw [List.attach_map_subtype_val]

/-- Eliminating `List.attach` from a `flatMap` whose body only uses
the value. -/
theorem attach_flatMap_eq {α β : Type _} (l : List α) (g : α → List β) :
    l.attach.flatMap (fun x => g x.1) = l.flatMap g :=
  calc l.attach.flatMap (fun x => g x.1)
      = (l.attach.map Subtype.val).flatMap g := (List.flatMap_map _ _ _).symm
    _ = l.flatMap g := by rw [List.attach_map_subtype_val]

/-- Eliminating `List.attach` from a `foldl` whose body only uses the
value. -/
theorem attach_foldl_eq {α β : Type _} (l : List α) (g : β → α → β) (b : β) :
    l.attach.foldl (fun acc x => g acc x.1) b = l.foldl g b :=
  calc l.attach.foldl (fun acc x => g acc x.1) b
      = (l.attach.map Subtype.val).foldl g b := (List.foldl_map _ _ _ _).symm
    _ = l.foldl g b := by rw [List.attach_map_subtype_val]

/-- Membership transfer out of `List.enum`. -/
theorem mem_of_mem_enum {α : Type _} {p : Nat × α} {l : List α} (h : p ∈ l.enum) :
    p.2 ∈ l :=
  List.getElem?_mem (List.mem_enum_iff_getElem?.mp h)

/-- Model of `subtree_has_printables` in the source: whether any entry anywhere
below a directory (hidden entries pruned as in `read_entries`)
satisfies the filter predicate.  The source's early-`return` loop is
the short-circuiting `List.any` over the same sequence of checks. -/
def subtree_has_printables (o : ListOptions) (m : Option (String → Bool)) :
    (children : List FsTree) → (rel : List String) → Bool :=
  fun children rel =>
    (read_entries children o.all).attach.any (fun c =>
      should_print_entry c.1.info (rel ++ [c.1.name]) o m ||
        (c.1.is_dir && subtree_has_printables o m c.1.children (rel ++ [c.1.name])))
termination_by children _ => sizeOf children
decreasing_by
  have h1 : c.1 ∈ children := List.mem_of_mem_filter c.2
  have h2 := List.sizeOf_lt_of_mem h1
  have h3 := FsTree.sizeOf_children_le c.1
  omega

/-- Attach-free characterization of `subtree_has_printables`. -/
theorem subtree_has_printables_eq (o : ListOptions) (m : Option (String → Bool))
    (children : List FsTree) (rel : List String) :
    subtree_has_printables o m children rel =
      (read_entries children o.all).any (fun c =>
        should_print_entry c.info (rel ++ [c.name]) o m ||
          (c.is_dir && subtree_has_printables o m c.children (rel ++ [c.name]))) := by
  rw [subtree_has_printables]
  exact attach_any_eq _ (fun (c : FsTree) =>
    should_print_entry c.info (rel ++ [c.name]) o m ||
      (c.is_dir && subtree_has_printables o m c.children (rel ++ [c.name])))

/-- The per-child inclusion test of `collect_tree_children` in the
source: `direct || context` with
`context = is_dir && !only_files && child_has`. -/
def tree_child_included (o : ListOptions) (m : Option (String → Bool))
    (c : FsTree) (crel : List String) : Bool :=
  let child_has := if c.is_dir then subtree_has_printables o m c.children crel else false
  let direct := should_print_entry c.info crel o m
  let context := c.is_dir && !o.only_files && child_has
  direct || context

/-- One rendered line: `DisplayEntry` of the source.  `prefixGlyphs`
is the `prefix` field (the tree glyph string); `rel_path` the
root-relative path as components. -/
structure DisplayEntry where
  entry : EntryInfo
  prefixGlyphs : String
  rel_path : List String
deriving DecidableEq, Repr

/-- Model of `tree_prefix` in the source: one glyph segment per ancestor level
(continuation bar if that ancestor has further siblings, blank
padding otherwise), then the branch or corner glyph. -/
def tree_prefix_string (ancestor_more : List Bool) (is_last : Bool) : String :=
  String.join (ancestor_more.map (fun more => if more then "│   " else "    "))
    ++ (if is_last then "└── " else "├── ")

/-- The `printable` vector built by `collect_tree_children`: the
sorted enumeration of a directory, filtered by the inclusion test. -/
def tree_printable_children (o : ListOptions) (m : Option (String → Bool))
    (children : List FsTree) (rel : List String) : List FsTree :=
  (sort_trees o (read_entries children o.all)).filter
    (fun c => tree_child_included o m c (rel ++ [c.name]))

theorem mem_of_tree_printable {o : ListOptions} {m : Option (String → Bool)}
    {children : List FsTree} {rel : List String} {c : FsTree}
    (h : c ∈ tree_printable_children o m children rel) : c ∈ children := by
  have h1 := List.mem_of_mem_filter h
  rw [sort_trees, List.mem_insertionSort] at h1
  exact List.mem_of_mem_filter h1

/-- Model of `collect_tree_children` in the source: emit each included child of
a directory (in sorted order, with its glyph string computed from the
ancestor chain and last-sibling position) and recurse into included
directory children, extending the ancestor-flag stack.  The function's
`any_printed` boolean return is never consumed by any caller in the
source and is dropped. -/
def collect_tree_children (o : ListOptions) (m : Option (String → Bool)) :
    (children : List FsTree) → (rel : List String) → (ancestor_more : List Bool) →
      List DisplayEntry :=
  fun children rel ancestor_more =>
    let printable := tree_printable_children o m children rel
    let total := printable.length
    printable.enum.attach.flatMap (fun x =>
      let idx := x.1.1
      let c := x.1.2
      let is_last := idx + 1 == total
      let crel := rel ++ [c.name]
      ⟨c.info, tree_prefix_string ancestor_more is_last, crel⟩ ::
        (if c.is_dir then
          collect_tree_children o m c.children crel (ancestor_more ++ [!is_last])
        else []))
termination_by children _ _ => sizeOf children
decreasing_by
  have h1 : x.1.2 ∈ tree_printable_children o m children rel := mem_of_mem_enum x.2
  have h2 := List.sizeOf_lt_of_mem (mem_of_tree_printable h1)
  have h3 := FsTree.sizeOf_children_le x.1.2
  omega

/-- Attach-free characterization of `collect_tree_children`. -/
theorem collect_tree_children_eq (o : ListOptions) (m : Option (String → Bool))
    (children : List FsTree) (rel : List String) (ancestor_more : List Bool) :
    collect_tree_children o m children rel ancestor_more =
      (tree_printable_children o m children rel).enum.flatMap (fun p =>
        ⟨p.2.info, tree_prefix_string ancestor_more
            (p.1 + 1 == (tree_printable_children o m children rel).length),
          rel ++ [p.2.name]⟩ ::
          (if p.2.is_dir then
            collect_tree_children o m p.2.children (rel ++ [p.2.name])
              (ancestor_more ++ [!(p.1 + 1 == (tree_printable_children o m children rel).length)])
          else [])) := by
  rw [collect_tree_children]
  exact attach_flatMap_eq _ (fun (p : Nat × FsTree) =>
    ⟨p.2.info, tree_prefix_string ancestor_more
        (p.1 + 1 == (tree_printable_children o m children rel).length),
      rel ++ [p.2.name]⟩ ::
      (if p.2.is_dir then
        collect_tree_children o m p.2.children (rel ++ [p.2.name])
          (ancestor_more ++ [!(p.1 + 1 == (tree_printable_children o m children rel).length)])
      else []))

/-- Model of `build_display_entries_for_dir` in the source.  In tree mode the
root itself becomes a zero-depth entry with relative path `"."` and an
empty glyph string (unless `only_files` is set), followed by the
recursive assembly; in flat mode the directory is enumerated once,
sorted, and filtered by the predicate. -/
def build_display_entries_for_dir (o : ListOptions) (m : Option (String → Bool))
    (root : FsTree) : List DisplayEntry :=
  if o.tree then
    (if !o.only_files then [⟨root.info, "", ["."]⟩] else []) ++
      collect_tree_children o m root.children [] []
  else
    (sort_trees o (read_entries root.children o.all)).filterMap (fun e =>
      if should_print_entry e.info [e.name] o m then
        some ⟨e.info, "", [e.name]⟩
      else none)

/-! ### Recursive walk, specification side

`walk_entries` lists every entry the recursive walk encounters (the
same enumeration both `subtree_has_printables` and `walk_summary_dir`
traverse), with its root-relative path.  It is the specification-side
yardstick the claims compare the source's accumulators against. -/

def walk_entries (all : Bool) :
    (children : List FsTree) → (rel : List String) → List (EntryInfo × List String) :=
  fun children rel =>
    (read_entries children all).attach.flatMap (fun c =>
      (c.1.info, rel ++ [c.1.name]) ::
        (if c.1.is_dir then walk_entries all c.1.children (rel ++ [c.1.name]) else []))
termination_by children _ => sizeOf children
decreasing_by
  have h1 : c.1 ∈ children := List.mem_of_mem_filter c.2
  have h2 := List.sizeOf_lt_of_mem h1
  have h3 := FsTree.sizeOf_children_le c.1
  omega

/-- Attach-free characterization of `walk_entries`. -/
theorem walk_entries_eq (all : Bool) (children : List FsTree) (rel : List String) :
    walk_entries all children rel =
      (read_entries children all).flatMap (fun c =>
        (c.info, rel ++ [c.name]) ::
          (if c.is_dir then walk_entries all c.children (rel ++ [c.name]) else [])) := by
  rw [walk_entries]
  exact attach_flatMap_eq _ (fun (c : FsTree) =>
    (c.info, rel ++ [c.name]) ::
      (if c.is_dir then walk_entries all c.children (rel ++ [c.name]) else []))

/-! ### Summary aggregation -/

/-- Per-extension counters (`ExtSummary` in the source). -/
structure ExtSummary where
  files : Nat
  bytes : Nat
deriving DecidableEq, Repr

/-- Model of `ListingSummary` in the source.  The `BTreeMap<String, ExtSummary>`
is modelled as an association list kept sorted (strictly ascending) by
key, which is exactly the map's iteration order. -/
structure ListingSummary where
  total_bytes : Nat := 0
  total_files : Nat := 0
  total_dirs : Nat := 0
  ext : List (String × ExtSummary) := []
deriving DecidableEq, Repr

/-- Rust `Path::extension` applied to the entry's name: the portion
after the last `'.'`, provided the portion before that dot is
nonempty; `none` when the name has no dot or starts with its only
dot. -/
def extension_of (name : String) : Option String :=
  let rev := name.data.reverse
  match rev.dropWhile (fun c => c ≠ '.') with
  | [] => none
  | _ :: before =>
    if before.isEmpty then none
    else some (String.mk ((rev.takeWhile (fun c => c ≠ '.')).reverse))

/-- The `summary.ext.entry(ext).or_default(); files += 1; bytes += sz`
step of `add_extension_stat`, on the sorted association list. -/
def ext_insert (m : List (String × ExtSummary)) (key : String) (sz : Nat) :
    List (String × ExtSummary) :=
  match m with
  | [] => [(key, ⟨1, sz⟩)]
  | (k, s) :: rest =>
    if key < k then (key, ⟨1, sz⟩) :: (k, s) :: rest
    else if key = k then (k, ⟨s.files + 1, s.bytes + sz⟩) :: rest
    else (k, s) :: ext_insert rest key sz

/-- Model of `add_extension_stat` in the source: regular files only; the key is
the ASCII-lowercased extension, the empty string when there is none
(`to_str` conversion never fails in the model, names being `String`
already). -/
def add_extension_stat (summary : ListingSummary) (e : EntryInfo) : ListingSummary :=
  if e.kind ≠ EntryKind.regFile then summary
  else
    let ext := to_lowercase ((extension_of e.name).getD "")
    { summary with ext := ext_insert summary.ext ext e.size }

/-- Model of `walk_summary_dir` in the source: recursive accumulation over the
unsorted enumeration; a directory's subtree is visited first
(unconditionally — filtering never skips a subtree), then the
directory itself is counted if the predicate accepts it; a non-directory
is counted (files, bytes, per-extension) if the predicate accepts it. -/
def walk_summary_dir (o : ListOptions) (m : Option (String → Bool)) :
    (children : List FsTree) → (rel : List String) → ListingSummary → ListingSummary :=
  fun children rel summary =>
    (read_entries children o.all).attach.foldl
      (fun acc c =>
        let crel := rel ++ [c.1.name]
        if c.1.is_dir then
          let acc := walk_summary_dir o m c.1.children crel acc
          if should_print_entry c.1.info crel o m then
            { acc with total_dirs := acc.total_dirs + 1 }
          else acc
        else if should_print_entry c.1.info crel o m then
          add_extension_stat
            { acc with
              total_files := acc.total_files + 1,
              total_bytes := acc.total_bytes + c.1.info.size }
            c.1.info
        else acc)
      summary
termination_by children _ _ => sizeOf children
decreasing_by
  have h1 : c.1 ∈ children := List.mem_of_mem_filter c.2
  have h2 := List.sizeOf_lt_of_mem h1
  have h3 := FsTree.sizeOf_children_le c.1
  omega

/-- Attach-free characterization of `walk_summary_dir`. -/
theorem walk_summary_dir_eq (o : ListOptions) (m : Option (String → Bool))
    (children : List FsTree) (rel : List String) (summary : ListingSummary) :
    walk_summary_dir o m children rel summary =
      (read_entries children o.all).foldl
        (fun acc c =>
          if c.is_dir then
            let acc := walk_summary_dir o m c.children (rel ++ [c.name]) acc
            if should_print_entry c.info (rel ++ [c.name]) o m then
              { acc with total_dirs := acc.total_dirs + 1 }
            else acc
          else if should_print_entry c.info (rel ++ [c.name]) o m then
            add_extension_stat
              { acc with
                total_files := acc.total_files + 1,
                total_bytes := acc.total_bytes + c.info.size }
              c.info
          else acc)
        summary := by
  rw [walk_summary_dir]
  exact attach_foldl_eq _ (fun acc (c : FsTree) =>
    if c.is_dir then
      let acc := walk_summary_dir o m c.children (rel ++ [c.name]) acc
      if should_print_entry c.info (rel ++ [c.name]) o m then
        { acc with total_dirs := acc.total_dirs + 1 }
      else acc
    else if should_print_entry c.info (rel ++ [c.name]) o m then
      add_extension_stat
        { acc with
          total_files := acc.total_files + 1,
          total_bytes := acc.total_bytes + c.info.size }
        c.info
    else acc) summary

/-- Model of `compute_summary` in the source, restricted to the directory case
(`list_path_once` only calls it with the scan root; the single-file
case builds a one-entry summary directly, see the spec §4.5). -/
def compute_summary (o : ListOptions) (m : Option (String → Bool))
    (root : FsTree) : ListingSummary :=
  walk_summary_dir o m root.children [] {}

/-! ### Size formatting

`format_size` of the source runs, for `human` output, the loop

    let mut f = size as f64;
    while f >= 1024.0 && idx + 1 < UNITS.len() { f /= 1024.0; idx += 1; }

Division of an `f64` by `1024.0 = 2^10` only decrements the exponent
and is always exact here (no underflow is reachable for byte counts),
so after the loop `f` is exactly `size / 1024 ^ idx` as a real number
whenever `size < 2^53` (below which the initial cast is exact).  The
model therefore carries `idx` and keeps `f` as the exact pair
`(size, 1024 ^ idx)`; the loop guard `f >= 1024.0` becomes
`1024 ^ (idx + 1) ≤ size`.  Formatting `f` at precision one renders the exact
binary value rounded to one decimal digit with ties to even, which
`round_half_even` reproduces. -/

def UNITS : List String := ["B", "KiB", "MiB", "GiB", "TiB"]

/-- The division loop of `format_size`: the number of divisions
performed (`idx` on loop exit), starting from `idx`. -/
def size_unit_idx (size : Nat) (idx : Nat) : Nat :=
  if 1024 ^ (idx + 1) ≤ size ∧ idx + 1 < 5 then size_unit_idx size (idx + 1) else idx
termination_by 5 - idx
decreasing_by omega

/-- Round `num / den` to the nearest integer, ties to even (the
rounding IEEE-754 formatting applies to the exact value). -/
def round_half_even (num den : Nat) : Nat :=
  let q := num / den
  let r := num % den
  if 2 * r < den then q
  else if den < 2 * r then q + 1
  else if q % 2 = 0 then q else q + 1

/-- Rendering of `f` at one decimal digit for the exact value `num10 / (10 * den)`
scaled so that `num10 / den` is the value times ten. -/
def format_one_dec (num10 den : Nat) : String :=
  let s := round_half_even num10 den
  toString (s / 10) ++ "." ++ toString (s % 10)

/-- Model of `format_size` in the source. -/
def format_size (size : Nat) (human : Bool) : String :=
  if !human then toString size
  else
    let idx := size_unit_idx size 0
    if idx = 0 then toString size ++ " " ++ UNITS.getD idx ""
    else format_one_dec (10 * size) (1024 ^ idx) ++ " " ++ UNITS.getD idx ""

/-! ### Structured output -/

/-- Model of `JsonEntry` in the source.  The `modified` timestamp string is
produced by the external `humantime::format_rfc3339` collaborator and
is kept as the raw optional timestamp here (no claim inspects its
text). -/
structure JsonEntry where
  rel_path : String
  name : String
  kind : String
  size : Nat
  modified : Option Nat
  depth : Nat
deriving DecidableEq, Repr

/-- Model of `DisplayEntry::to_json` in the source. -/
def DisplayEntry.to_json (d : DisplayEntry) : JsonEntry :=
  let kind :=
    if d.entry.is_dir then "dir"
    else if d.entry.kind = EntryKind.symlink then "symlink"
    else "file"
  let rel := normalize_match_path d.rel_path
  let depth := if d.rel_path = ["."] then 0 else d.rel_path.length - 1
  ⟨rel, d.entry.name, kind, d.entry.size, d.entry.modified, depth⟩

/-! ### Interactive navigator

The navigator is replayed with explicit state passing: `BrowserState`
is the `cursive` user data; `UiState` stands for the widget tree (the
entry list with its attached paths, the summary panel text, and the
window title).  The filesystem is an abstract fallible oracle `SimFs`
whose error strings play the role of the OS error text; `anyhow`
context chaining of `read_entries` formats as
"Failed to read DIR: CAUSE".  A `cursive` callback that receives an
`Err` shows the error text in the summary panel and keeps running,
which the `run_submit` wrapper reproduces.  View mutations performed
by a transition before a later step fails are not modelled (the
`Except` result discards them); no claim observes that difference. -/

/-- Metadata record of the oracle (`fs::symlink_metadata`). -/
structure SimMeta where
  kind : EntryKind
  len : Nat
  modified : Option Nat
  readonly : Bool

/-- Fallible filesystem oracle: absolute paths are component lists.
`read_dir` yields the raw entries of a directory with their metadata
(per-child metadata failures of the source are folded into the
directory-level failure). -/
structure SimFs where
  meta : List String → Except String SimMeta
  read_dir : List String → Except String (List (String × SimMeta))

/-- Model of `BrowserState` in the source. -/
structure BrowserState where
  cwd : List String
  options : ListOptions

/-- The widget state the navigator callbacks mutate. -/
structure UiState where
  items : List (String × List String)
  summary : String
  title : String
deriving DecidableEq, Repr

/-- Model of `set_summary_text` in the source. -/
def set_summary_text (ui : UiState) (text : String) : UiState :=
  { ui with summary := text }

/-- Model of `read_entries` in the source against the oracle (the interactive
mode lists real directories, not snapshots): filters hidden names and
builds `EntryInfo` records, with the `anyhow` context string on
failure. -/
def read_entries_fs (fs : SimFs) (dir : List String) (all : Bool) :
    Except String (List EntryInfo) :=
  match fs.read_dir dir with
  | .error e => .error ("Failed to read " ++ path_display dir ++ ": " ++ e)
  | .ok l =>
    .ok ((l.filter (fun p => all || !is_hidden p.1)).map
      (fun p => ⟨p.1, p.2.kind, p.2.len, p.2.modified⟩))

/-- Model of `tui_label` in the source (icons disabled unless requested; the
platform separator is `/` in the model). -/
def tui_label (e : EntryInfo) : String :=
  e.name ++ (if e.is_dir then "/" else "")

/-- Model of `count_children` in the source: tally immediate children into
(directories, non-directories). -/
def count_children_fs (fs : SimFs) (dir : List String) :
    Except String (Nat × Nat) :=
  match fs.read_dir dir with
  | .error e => .error e
  | .ok l =>
    .ok (l.foldl
      (fun acc p => if p.2.kind = EntryKind.dir then (acc.1 + 1, acc.2) else (acc.1, acc.2 + 1))
      (0, 0))

/-- Model of `update_summary` in the source: build the detail panel text for
one path. -/
def update_summary (fs : SimFs) (path : List String) (ui : UiState) :
    Except String UiState :=
  match fs.meta path with
  | .error e => .error e
  | .ok md =>
    let kind :=
      if md.kind = EntryKind.dir then "Directory"
      else if md.kind = EntryKind.symlink then "Symlink"
      else "File"
    let modifiedLine :=
      match md.modified with
      | some t => toString t
      | none => "-"
    let base :=
      "Path: " ++ path_display path ++ "\n" ++
      "Type: " ++ kind ++ "\n" ++
      "Modified: " ++ modifiedLine ++ "\n"
    match
      (if md.kind = EntryKind.regFile then
        .ok ("Size: " ++ format_size md.len true ++ "\n")
      else if md.kind = EntryKind.dir then
        match count_children_fs fs path with
        | .error e => .error e
        | .ok counts =>
          .ok ("Children: " ++ toString counts.1 ++ " dirs, " ++
            toString counts.2 ++ " files\n")
      else (.ok "" : Except String String)) with
    | .error e => .error e
    | .ok midLine =>
      let text := base ++ midLine ++
        "Writable: " ++ (if md.readonly then "no" else "yes") ++ "\n"
      .ok (set_summary_text ui text)

/-- Model of `interactive_reload` in the source: re-enumerate and sort the
current directory, rebuild the label list and window title, then show
the first entry's details (or a placeholder when empty).  Failures
propagate to the caller as in the source (`?`). -/
def interactive_reload_fs (fs : SimFs) (st : BrowserState) (ui : UiState) :
    Except String UiState :=
  match read_entries_fs fs st.cwd st.options.all with
  | .error e => .error e
  | .ok entries =>
    let sorted := sort_entries entries st.options.sort st.options.reverse
    let items := sorted.map (fun e => (tui_label e, st.cwd ++ [e.name]))
    let ui := { ui with
      items := items,
      title := "lz interactive - " ++ path_display st.cwd }
    match sorted.head? with
    | some first => update_summary fs (st.cwd ++ [first.name]) ui
    | none => .ok (set_summary_text ui "(empty)")

/-- Model of `interactive_open_or_select` in the source: the Activate
transition.  For a directory target the current directory is set to
the target FIRST, then the reload runs; a reload failure leaves the
already-mutated state in place (the source mutates the `cursive` user
data before calling `interactive_reload`, and an `Err` return performs
no rollback). -/
def interactive_open_or_select (fs : SimFs) (st : BrowserState) (ui : UiState)
    (path : List String) : BrowserState × Except String UiState :=
  match fs.meta path with
  | .error e => (st, .error e)
  | .ok md =>
    if md.kind = EntryKind.dir then
      let st' := { st with cwd := path }
      (st', interactive_reload_fs fs st' ui)
    else
      (st, update_summary fs path ui)

/-- The `on_submit` callback wrapper of `run_interactive`: an `Err`
from the transition is rendered into the summary panel and the event
loop keeps running (the boolean is the "still running" flag — only the
quit keys end the loop). -/
def run_submit (fs : SimFs) (st : BrowserState) (ui : UiState)
    (path : List String) : BrowserState × UiState × Bool :=
  match interactive_open_or_select fs st ui path with
  | (st', .ok ui') => (st', ui', true)
  | (st', .error e) => (st', set_summary_text ui e, true)

/-! ### Comparator laws

The comparator of `sort_entries` is shown to be a total preorder
comparison (`Batteries.TransCmp`), which is what the sortedness and
stability lemmas about the modelled sort require. -/

theorem natCmp_eq_lt_iff {a b : Nat} : natCmp a b = .lt ↔ a < b := by
  unfold natCmp
  split_ifs <;> (simp_all; try omega)

theorem natCmp_eq_eq_iff {a b : Nat} : natCmp a b = .eq ↔ a = b := by
  unfold natCmp
  split_ifs <;> (simp_all; try omega)

theorem natCmp_eq_gt_iff {a b : Nat} : natCmp a b = .gt ↔ b < a := by
  unfold natCmp
  split_ifs <;> (simp_all; try omega)

theorem natCmp_ne_gt_iff {a b : Nat} : natCmp a b ≠ .gt ↔ a ≤ b := by
  simp only [ne_eq, natCmp_eq_gt_iff]
  omega

theorem natCmp_symm (a b : Nat) : (natCmp a b).swap = natCmp b a := by
  rcases Nat.lt_trichotomy a b with h | h | h
  · rw [natCmp_eq_lt_iff.mpr h, natCmp_eq_gt_iff.mpr h]
    rfl
  · rw [natCmp_eq_eq_iff.mpr h, natCmp_eq_eq_iff.mpr h.symm]
    rfl
  · rw [natCmp_eq_gt_iff.mpr h, natCmp_eq_lt_iff.mpr h]
    rfl

theorem natCmp_le_trans {a b c : Nat} (h1 : natCmp a b ≠ .gt) (h2 : natCmp b c ≠ .gt) :
    natCmp a c ≠ .gt := by
  rw [natCmp_ne_gt_iff] at h1 h2 ⊢
  omega

instance : Batteries.TransCmp natCmp where
  symm a b := natCmp_symm a b
  le_trans h1 h2 := natCmp_le_trans h1 h2

/-- A comparator pulled back along a function inherits the total
preorder laws. -/
theorem transCmp_comap {α : Type _} {β : Type _} (f : α → β) (C : β → β → Ordering)
    (h : Batteries.TransCmp C) : Batteries.TransCmp (fun a b => C (f a) (f b)) where
  symm a b := h.symm (f a) (f b)
  le_trans h1 h2 := h.le_trans h1 h2

instance : Batteries.TransCmp boolCmp :=
  transCmp_comap Bool.toNat natCmp inferInstance

instance : Batteries.TransCmp charCmp :=
  transCmp_comap Char.toNat natCmp inferInstance

theorem charCmp_symm (a b : Char) : (charCmp a b).swap = charCmp b a :=
  Batteries.OrientedCmp.symm a b

theorem listCmp_symm (as bs : List Char) : (listCmp as bs).swap = listCmp bs as := by
  induction as generalizing bs with
  | nil => cases bs <;> rfl
  | cons a as ih =>
    cases bs with
    | nil => rfl
    | cons b bs => simp [listCmp, Ordering.swap_then, charCmp_symm, ih]

theorem listCmp_le_trans : ∀ {as bs cs : List Char},
    listCmp as bs ≠ .gt → listCmp bs cs ≠ .gt → listCmp as cs ≠ .gt := by
  intro as
  induction as with
  | nil =>
    intro bs cs _ _
    cases cs <;> simp [listCmp]
  | cons a as ih =>
    intro bs cs h1 h2
    cases bs with
    | nil => simp [listCmp] at h1
    | cons b bs =>
      cases cs with
      | nil => simp [listCmp] at h2
      | cons c cs =>
        simp only [listCmp, ne_eq, Ordering.then_eq_gt, not_or, not_and,
          charCmp, natCmp_eq_gt_iff, natCmp_eq_eq_iff] at h1 h2 ⊢
        obtain ⟨h1g, h1e⟩ := h1
        obtain ⟨h2g, h2e⟩ := h2
        refine ⟨by omega, fun hac => ?_⟩
        exact ih (h1e (by omega)) (h2e (by omega))

instance : Batteries.TransCmp listCmp where
  symm as bs := listCmp_symm as bs
  le_trans := listCmp_le_trans

instance : Batteries.TransCmp strCmp :=
  transCmp_comap String.data listCmp inferInstance

instance : Batteries.TransCmp optCmp where
  symm a b := by
    cases a <;> cases b <;> first
      | rfl
      | exact natCmp_symm _ _
  le_trans {a b c} h1 h2 := by
    cases a <;> cases b <;> cases c <;> simp [optCmp] at h1 h2 ⊢
    exact natCmp_le_trans h1 h2

/-- The key-comparison part of `cmpEntries` (after the directory-ness
clause), including the `reverse` inversion. -/
def keyCmp (key : SortKey) (rev : Bool) (a b : EntryInfo) : Ordering :=
  let c :=
    match key with
    | .name => strCmp (to_lowercase a.name) (to_lowercase b.name)
    | .size => natCmp b.size a.size
    | .age => optCmp b.modified a.modified
  if rev then c.swap else c

theorem cmpEntries_eq_then (key : SortKey) (rev : Bool) (a b : EntryInfo) :
    cmpEntries key rev a b = (boolCmp b.is_dir a.is_dir).then (keyCmp key rev a b) := by
  unfold cmpEntries keyCmp
  rcases h : boolCmp b.is_dir a.is_dir with _ | _ | _ <;> simp [Ordering.then]

/-- Pointwise `Ordering.swap` of a lawful comparator is lawful (it is
the flipped comparator). -/
theorem transCmp_swapFn {α : Type _} (C : α → α → Ordering) (hC : Batteries.TransCmp C) :
    Batteries.TransCmp (fun a b => (C a b).swap) := by
  have h : (fun a b => (C a b).swap) = flip C := by
    funext a b
    exact hC.symm a b
  rw [h]
  haveI := hC
  exact inferInstanceAs (Batteries.TransCmp (flip C))

theorem transCmp_keyCmp (key : SortKey) (rev : Bool) :
    Batteries.TransCmp (keyCmp key rev) := by
  haveI hname : Batteries.TransCmp
      (fun a b : EntryInfo => strCmp (to_lowercase a.name) (to_lowercase b.name)) :=
    transCmp_comap (fun e : EntryInfo => to_lowercase e.name) strCmp inferInstance
  haveI hsize : Batteries.TransCmp (fun a b : EntryInfo => natCmp a.size b.size) :=
    transCmp_comap EntryInfo.size natCmp inferInstance
  haveI hage : Batteries.TransCmp (fun a b : EntryInfo => optCmp a.modified b.modified) :=
    transCmp_comap EntryInfo.modified optCmp inferInstance
  cases key <;> cases rev
  · exact hname
  · exact transCmp_swapFn _ hname
  · exact inferInstanceAs
      (Batteries.TransCmp (flip (fun a b : EntryInfo => natCmp a.size b.size)))
  · exact transCmp_swapFn _ (inferInstanceAs
      (Batteries.TransCmp (flip (fun a b : EntryInfo => natCmp a.size b.size))))
  · exact inferInstanceAs
      (Batteries.TransCmp (flip (fun a b : EntryInfo => optCmp a.modified b.modified)))
  · exact transCmp_swapFn _ (inferInstanceAs
      (Batteries.TransCmp (flip (fun a b : EntryInfo => optCmp a.modified b.modified))))

theorem transCmp_cmpEntries (key : SortKey) (rev : Bool) :
    Batteries.TransCmp (cmpEntries key rev) := by
  have h : cmpEntries key rev =
      compareLex (fun a b : EntryInfo => boolCmp b.is_dir a.is_dir) (keyCmp key rev) := by
    funext a b
    exact cmpEntries_eq_then key rev a b
  rw [h]
  haveI : Batteries.TransCmp (fun a b : EntryInfo => boolCmp b.is_dir a.is_dir) := by
    haveI := transCmp_comap (fun e : EntryInfo => e.is_dir) boolCmp inferInstance
    exact inferInstanceAs
      (Batteries.TransCmp (flip (fun a b : EntryInfo => boolCmp a.is_dir b.is_dir)))
  haveI := transCmp_keyCmp key rev
  exact inferInstanceAs (Batteries.TransCmp (compareLex _ _))

theorem entryLE_eq_true_iff {key : SortKey} {rev : Bool} {a b : EntryInfo} :
    entryLE key rev a b = true ↔ cmpEntries key rev a b ≠ .gt := by
  simp [entryLE]

theorem entryLE_total (key : SortKey) (rev : Bool) (a b : EntryInfo) :
    entryLE key rev a b = true ∨ entryLE key rev b a = true := by
  rcases h : cmpEntries key rev a b with _ | _ | _
  · left
    simp [entryLE_eq_true_iff, h]
  · left
    simp [entryLE_eq_true_iff, h]
  · right
    have hswap := (transCmp_cmpEntries key rev).symm a b
    rw [h] at hswap
    rw [entryLE_eq_true_iff, ← hswap]
    decide

theorem entryLE_trans {key : SortKey} {rev : Bool} {a b c : EntryInfo}
    (h1 : entryLE key rev a b = true) (h2 : entryLE key rev b c = true) :
    entryLE key rev a c = true := by
  rw [entryLE_eq_true_iff] at h1 h2 ⊢
  exact (transCmp_cmpEntries key rev).le_trans h1 h2

/-- The output of `sort_entries` is ordered by the comparator. -/
theorem sort_entries_sorted (l : List EntryInfo) (key : SortKey) (rev : Bool) :
    (sort_entries l key rev).Pairwise (fun a b => entryLE key rev a b = true) := by
  letI : IsTotal EntryInfo (fun a b => entryLE key rev a b = true) :=
    ⟨fun a b => entryLE_total key rev a b⟩
  letI : IsTrans EntryInfo (fun a b => entryLE key rev a b = true) :=
    ⟨fun _ _ _ h1 h2 => entryLE_trans h1 h2⟩
  exact List.sorted_insertionSort _ l

/-- The output of `sort_entries` is a permutation of the input. -/
theorem sort_entries_perm (l : List EntryInfo) (key : SortKey) (rev : Bool) :
    (sort_entries l key rev).Perm l :=
  List.perm_insertionSort _ l

theorem charCmp_eq_eq_iff {a b : Char} : charCmp a b = .eq ↔ a = b := by
  rw [charCmp, natCmp_eq_eq_iff]
  constructor
  · intro h
    exact Char.ext (UInt32.ext h)
  · intro h
    rw [h]

theorem listCmp_eq_eq_iff : ∀ {as bs : List Char}, listCmp as bs = .eq ↔ as = bs := by
  intro as
  induction as with
  | nil =>
    intro bs
    cases bs <;> simp [listCmp]
  | cons a as ih =>
    intro bs
    cases bs with
    | nil => simp [listCmp]
    | cons b bs =>
      simp [listCmp, Ordering.then_eq_eq, charCmp_eq_eq_iff, ih]

theorem strCmp_eq_eq_iff {a b : String} : strCmp a b = .eq ↔ a = b := by
  rw [strCmp, listCmp_eq_eq_iff]
  constructor
  · exact String.ext
  · intro h
    rw [h]

/-- Within one directory-ness group the comparator is exactly the key
comparison (the directory-first clause compares equal). -/
theorem cmpEntries_of_group {key : SortKey} {rev : Bool} {a b : EntryInfo}
    (h : a.is_dir = b.is_dir) :
    cmpEntries key rev a b = keyCmp key rev a b := by
  rw [cmpEntries_eq_then, h]
  have hb : boolCmp b.is_dir b.is_dir = .eq := natCmp_eq_eq_iff.mpr rfl
  rw [hb]
  rfl

/-! ### Claim theorems -/

/-- C2: for every list of entries, every sort key and both values of
the reverse flag, after `sort_entries` every directory entry precedes
every non-directory entry (whenever a later entry is a directory, so
is every earlier one), so the directory-first clause is never inverted
by `reverse`. -/
theorem c2_dirs_first (l : List EntryInfo) (key : SortKey) (rev : Bool) :
    (sort_entries l key rev).Pairwise (fun a b => b.is_dir = true → a.is_dir = true) := by
  refine (sort_entries_sorted l key rev).imp ?_
  intro a b hle hbd
  by_contra had
  rw [entryLE_eq_true_iff, cmpEntries_eq_then] at hle
  apply hle
  have ha : a.is_dir = false := by
    cases h : a.is_dir
    · rfl
    · exact absurd h had
  rw [hbd, ha]
  rfl

/-- C5: under sort key Age without reverse, within each directory-ness
group the entries are ordered descending by modification time, and an
entry with an unknown modification time is never followed by one with
a known time (unknown times sort last). -/
theorem c5_age_descending (l : List EntryInfo) :
    (sort_entries l .age false).Pairwise (fun a b =>
      a.is_dir = b.is_dir →
        (∀ ta tb, a.modified = some ta → b.modified = some tb → tb ≤ ta) ∧
          (a.modified = none → b.modified = none)) := by
  refine (sort_entries_sorted l .age false).imp ?_
  intro a b hle hgroup
  rw [entryLE_eq_true_iff, cmpEntries_of_group hgroup] at hle
  have hk : optCmp b.modified a.modified ≠ .gt := hle
  constructor
  · intro ta tb hta htb
    rw [hta, htb] at hk
    simp only [optCmp] at hk
    exact natCmp_ne_gt_iff.mp hk
  · intro hna
    rw [hna] at hk
    cases hb : b.modified with
    | none => rfl
    | some tb =>
      rw [hb] at hk
      simp [optCmp] at hk

theorem strCmp_symm (a b : String) : (strCmp a b).swap = strCmp b a :=
  listCmp_symm a.data b.data

/-- Reverse symmetry of the Name sort on one directory-ness group,
under pairwise-distinct case-folded names within that group. -/
theorem c4_helper (l : List EntryInfo) (g : Bool)
    (hnd : (l.filter (fun e => e.is_dir == g)).Pairwise
      (fun a b => to_lowercase a.name ≠ to_lowercase b.name)) :
    (sort_entries l .name true).filter (fun e => e.is_dir == g) =
      ((sort_entries l .name false).filter (fun e => e.is_dir == g)).reverse := by
  have permA : ((sort_entries l .name false).filter (fun e => e.is_dir == g)).Perm
      (l.filter (fun e => e.is_dir == g)) :=
    (sort_entries_perm l .name false).filter _
  have permD : ((sort_entries l .name true).filter (fun e => e.is_dir == g)).Perm
      (l.filter (fun e => e.is_dir == g)) :=
    (sort_entries_perm l .name true).filter _
  have hsymmNe : ∀ {x y : EntryInfo}, to_lowercase x.name ≠ to_lowercase y.name →
      to_lowercase y.name ≠ to_lowercase x.name := fun h => h.symm
  have hndA := (permA.pairwise_iff hsymmNe).mpr hnd
  have hndD := (permD.pairwise_iff hsymmNe).mpr hnd
  have hgA : ∀ x ∈ (sort_entries l .name false).filter (fun e => e.is_dir == g),
      x.is_dir = g := by
    intro x hx
    simpa using (List.mem_filter.mp hx).2
  have hgD : ∀ x ∈ (sort_entries l .name true).filter (fun e => e.is_dir == g),
      x.is_dir = g := by
    intro x hx
    simpa using (List.mem_filter.mp hx).2
  have hsA : ((sort_entries l .name false).filter (fun e => e.is_dir == g)).Pairwise
      (fun a b => entryLE .name false a b = true) :=
    List.Pairwise.sublist (List.filter_sublist _) (sort_entries_sorted l .name false)
  have hsD : ((sort_entries l .name true).filter (fun e => e.is_dir == g)).Pairwise
      (fun a b => entryLE .name true a b = true) :=
    List.Pairwise.sublist (List.filter_sublist _) (sort_entries_sorted l .name true)
  have hltA : ((sort_entries l .name false).filter (fun e => e.is_dir == g)).Pairwise
      (fun a b => strCmp (to_lowercase a.name) (to_lowercase b.name) = .lt) := by
    have hgPair := List.pairwise_of_forall_mem_list
      (fun a ha b hb => And.intro (hgA a ha) (hgA b hb))
    refine ((hsA.and hndA).and hgPair).imp ?_
    rintro a b ⟨⟨hle, hne⟩, hga, hgb⟩
    rw [entryLE_eq_true_iff, cmpEntries_of_group (by rw [hga, hgb])] at hle
    have h1 : strCmp (to_lowercase a.name) (to_lowercase b.name) ≠ .gt := hle
    rcases hsc : strCmp (to_lowercase a.name) (to_lowercase b.name) with _ | _ | _
    · rfl
    · exact absurd (strCmp_eq_eq_iff.mp hsc) hne
    · exact absurd hsc h1
  have hgtD : ((sort_entries l .name true).filter (fun e => e.is_dir == g)).Pairwise
      (fun a b => strCmp (to_lowercase a.name) (to_lowercase b.name) = .gt) := by
    have hgPair := List.pairwise_of_forall_mem_list
      (fun a ha b hb => And.intro (hgD a ha) (hgD b hb))
    refine ((hsD.and hndD).and hgPair).imp ?_
    rintro a b ⟨⟨hle, hne⟩, hga, hgb⟩
    rw [entryLE_eq_true_iff, cmpEntries_of_group (by rw [hga, hgb])] at hle
    have h1 : (strCmp (to_lowercase a.name) (to_lowercase b.name)).swap ≠ .gt := hle
    rcases hsc : strCmp (to_lowercase a.name) (to_lowercase b.name) with _ | _ | _
    · rw [hsc] at h1
      exact absurd rfl h1
    · exact absurd (strCmp_eq_eq_iff.mp hsc) hne
    · rfl
  have hanti : IsAntisymm EntryInfo
      (fun a b => strCmp (to_lowercase a.name) (to_lowercase b.name) = .gt ∨ a = b) := by
    constructor
    rintro a b (h1 | h1) (h2 | h2)
    · exfalso
      have hs := strCmp_symm (to_lowercase a.name) (to_lowercase b.name)
      rw [h1] at hs
      rw [h2] at hs
      exact absurd hs.symm (by decide)
    · exact h2.symm
    · exact h1
    · exact h1
  haveI := hanti
  have hsortD : List.Sorted
      (fun a b => strCmp (to_lowercase a.name) (to_lowercase b.name) = .gt ∨ a = b)
      ((sort_entries l .name true).filter (fun e => e.is_dir == g)) :=
    hgtD.imp (fun h => Or.inl h)
  have hsortRevA : List.Sorted
      (fun a b => strCmp (to_lowercase a.name) (to_lowercase b.name) = .gt ∨ a = b)
      (((sort_entries l .name false).filter (fun e => e.is_dir == g)).reverse) := by
    rw [List.Sorted, List.pairwise_reverse]
    refine hltA.imp ?_
    intro a b h
    left
    have hs := strCmp_symm (to_lowercase a.name) (to_lowercase b.name)
    rw [h] at hs
    exact hs.symm
  have hperm : ((sort_entries l .name true).filter (fun e => e.is_dir == g)).Perm
      (((sort_entries l .name false).filter (fun e => e.is_dir == g)).reverse) :=
    permD.trans (permA.symm.trans (List.reverse_perm _).symm)
  exact List.eq_of_perm_of_sorted hperm hsortD hsortRevA

/-- C4 counterexample: the claim as stated fails on ties.  For the two
regular files named "A" and "a" (equal case-folded names, so the
comparator returns `Equal`) the stable sort keeps enumeration order
under both values of `reverse`; restricted to the non-directory group,
the reversed-flag order is therefore NOT the exact reverse of the
ascending order. -/
theorem c4_counterexample :
    ¬ ((sort_entries [⟨"A", .regFile, 0, none⟩, ⟨"a", .regFile, 0, none⟩] .name true).filter
          (fun e => e.is_dir == false) =
        ((sort_entries [⟨"A", .regFile, 0, none⟩, ⟨"a", .regFile, 0, none⟩] .name
              false).filter
            (fun e => e.is_dir == false)).reverse) := by
  decide

/-- C4 (amended): restricted to the entries of one directory-ness
group, sorting by Name with reverse yields the exact reverse of the
sequence obtained without reverse PROVIDED the case-folded names
within that group are pairwise distinct; and when all compared fields
are equal (the comparator returns `Equal` on every pair), the stable
sort keeps enumeration order. -/
theorem c4_reverse_symmetry :
    (∀ (l : List EntryInfo) (g : Bool),
        (l.filter (fun e => e.is_dir == g)).Pairwise
          (fun a b => to_lowercase a.name ≠ to_lowercase b.name) →
        (sort_entries l .name true).filter (fun e => e.is_dir == g) =
          ((sort_entries l .name false).filter (fun e => e.is_dir == g)).reverse) ∧
    (∀ (l : List EntryInfo) (key : SortKey) (rev : Bool),
        l.Pairwise (fun a b => cmpEntries key rev a b = .eq) →
          sort_entries l key rev = l) := by
  constructor
  · exact c4_helper
  · intro l key rev hpe
    unfold sort_entries
    apply List.Sorted.insertionSort_eq
    refine hpe.imp ?_
    intro a b h
    rw [entryLE_eq_true_iff, h]
    decide

/-- Witness for C4 at concrete inputs: two distinct-name files sort
reverse-symmetrically, and a tied pair keeps enumeration order. -/
theorem c4_reverse_symmetry_witness :
    ((sort_entries [⟨"b", .regFile, 0, none⟩, ⟨"a", .regFile, 0, none⟩] .name true).filter
        (fun e => e.is_dir == false) =
      ((sort_entries [⟨"b", .regFile, 0, none⟩, ⟨"a", .regFile, 0, none⟩] .name
            false).filter
          (fun e => e.is_dir == false)).reverse) ∧
    sort_entries [⟨"A", .regFile, 3, none⟩, ⟨"a", .regFile, 3, none⟩] .name false =
      [⟨"A", .regFile, 3, none⟩, ⟨"a", .regFile, 3, none⟩] := by
  constructor
  · exact c4_reverse_symmetry.1
      [⟨"b", .regFile, 0, none⟩, ⟨"a", .regFile, 0, none⟩] false (by decide)
  · exact c4_reverse_symmetry.2
      [⟨"A", .regFile, 3, none⟩, ⟨"a", .regFile, 3, none⟩] .name false (by decide)

/-- C6: when both the only-directories and only-files toggles are set,
the filter predicate returns false for every entry and relative path
(a directory fails the only-files check, a non-directory the
only-dirs check); being a total function, no error arises from this
configuration. -/
theorem c6_both_only_flags (e : EntryInfo) (rel : List String) (o : ListOptions)
    (m : Option (String → Bool)) (hd : o.only_dirs = true) (hf : o.only_files = true) :
    should_print_entry e rel o m = false := by
  unfold should_print_entry
  rw [hd, hf]
  cases h : e.is_dir <;> simp [h]

theorem c6_both_only_flags_witness :
    should_print_entry ⟨"x", .regFile, 7, none⟩ ["x"]
        ⟨false, false, true, true, .name, false⟩ none = false ∧
    should_print_entry ⟨"d", .dir, 0, none⟩ ["d"]
        ⟨false, false, true, true, .name, false⟩ none = false := by
  constructor
  · exact c6_both_only_flags _ _ _ _ rfl rfl
  · exact c6_both_only_flags _ _ _ _ rfl rfl

/-- C7: the size formatter's boundary values (`0 B`, `1.0 KiB`,
`1.5 KiB`) and the non-human path, which is the decimal string of the
byte count for every size. -/
theorem c7_format_size :
    format_size 0 true = "0 B" ∧ format_size 1024 true = "1.0 KiB" ∧
      format_size 1536 true = "1.5 KiB" ∧
      ∀ n : Nat, format_size n false = toString n := by
  have h0 : size_unit_idx 0 0 = 0 := by
    rw [size_unit_idx]
    norm_num
  have h1 : size_unit_idx 1024 0 = 1 := by
    rw [size_unit_idx, size_unit_idx]
    norm_num
  have h2 : size_unit_idx 1536 0 = 1 := by
    rw [size_unit_idx, size_unit_idx]
    norm_num
  refine ⟨?_, ?_, ?_, ?_⟩
  · rw [format_size]
    simp only [h0]
    decide
  · rw [format_size]
    simp only [h1]
    decide
  · rw [format_size]
    simp only [h2]
    decide
  · intro n
    rw [format_size]
    simp

/-- C8: the structured-output `depth` equals the number of components
of `rel_path` minus one, and the scan root (relative path `"."`) has
depth `0`. -/
theorem c8_json_depth (d : DisplayEntry) :
    d.to_json.depth = d.rel_path.length - 1 ∧
      (d.rel_path = ["."] → d.to_json.depth = 0) := by
  constructor
  · unfold DisplayEntry.to_json
    by_cases h : d.rel_path = ["."]
    · simp [h]
    · simp [h]
  · intro h
    simp [DisplayEntry.to_json, h]

theorem c8_json_depth_witness :
    (DisplayEntry.to_json ⟨⟨"r", .dir, 0, none⟩, "", ["."]⟩).depth = 0 ∧
      (DisplayEntry.to_json ⟨⟨"b", .regFile, 0, none⟩, "", ["a", "b.txt"]⟩).depth = 1 := by
  constructor
  · exact (c8_json_depth ⟨⟨"r", .dir, 0, none⟩, "", ["."]⟩).2 rfl
  · exact (c8_json_depth ⟨⟨"b", .regFile, 0, none⟩, "", ["a", "b.txt"]⟩).1

/-- C10: before glob matching every backslash of the relative path is
replaced by `/` (the normalized string never contains a backslash);
consequently an entry whose name contains a literal backslash is
matched against the altered string — a matcher recognising exactly the
true name `"a\\b"` fails, while one recognising the altered `"a/b"`
succeeds. -/
theorem c10_backslash_normalization :
    (∀ rel : List String, '\\' ∉ (normalize_match_path rel).data) ∧
      should_print_entry ⟨"a\\b", .regFile, 0, none⟩ ["a\\b"]
          ⟨false, false, false, false, .name, false⟩
          (some (fun s => s == "a\\b")) = false ∧
      should_print_entry ⟨"a\\b", .regFile, 0, none⟩ ["a\\b"]
          ⟨false, false, false, false, .name, false⟩
          (some (fun s => s == "a/b")) = true := by
  refine ⟨?_, by decide, by decide⟩
  intro rel h
  simp only [normalize_match_path] at h
  rw [List.mem_map] at h
  obtain ⟨c, _, hc⟩ := h
  by_cases hbc : c = '\\'
  · rw [if_pos hbc] at hc
    exact absurd hc (by decide)
  · rw [if_neg hbc] at hc
    exact hbc hc

/-- Witness for C10: the normalized form of the one-component path
containing a backslash has no backslash left, and the two concrete
matcher evaluations are replayed through the theorem. -/
theorem c10_backslash_normalization_witness :
    ('\\' ∉ (normalize_match_path ["a\\b"]).data) ∧
      should_print_entry ⟨"a\\b", .regFile, 0, none⟩ ["a\\b"]
          ⟨false, false, false, false, .name, false⟩
          (some (fun s => s == "a\\b")) = false :=
  ⟨c10_backslash_normalization.1 ["a\\b"], c10_backslash_normalization.2.1⟩

/-- C9: Activate on a directory target sets `cwd` to the target before
reloading; when that reload fails (the target directory is unreadable)
`cwd` stays the failed target — no rollback to the previous directory —
while the navigator keeps running and the reload's error text is shown
in the summary panel. -/
theorem c9_activate_no_rollback (fs : SimFs) (st : BrowserState) (ui : UiState)
    (path : List String) (md : SimMeta) (err : String)
    (hmeta : fs.meta path = .ok md) (hdir : md.kind = EntryKind.dir)
    (hread : fs.read_dir path = .error err) :
    (run_submit fs st ui path).1.cwd = path ∧
      (run_submit fs st ui path).2.2 = true ∧
      (run_submit fs st ui path).2.1.summary =
        "Failed to read " ++ path_display path ++ ": " ++ err := by
  have hreload : interactive_reload_fs fs { st with cwd := path } ui =
      .error ("Failed to read " ++ path_display path ++ ": " ++ err) := by
    unfold interactive_reload_fs read_entries_fs
    simp [hread]
  have key : interactive_open_or_select fs st ui path =
      ({ st with cwd := path },
        .error ("Failed to read " ++ path_display path ++ ": " ++ err)) := by
    unfold interactive_open_or_select
    rw [hmeta]
    simp [hdir, hreload]
  unfold run_submit
  rw [key]
  simp [set_summary_text]

/-- A concrete oracle for the C9 witness: `/home/d` is a directory
whose metadata reads fine but whose listing is denied. -/
def c9fs : SimFs where
  meta := fun p =>
    if p = ["home", "d"] then .ok ⟨EntryKind.dir, 0, none, false⟩ else .error "missing"
  read_dir := fun _ => .error "permission denied"

theorem c9_activate_no_rollback_witness :
    (run_submit c9fs ⟨["home"], ⟨false, false, false, false, .name, false⟩⟩
        ⟨[], "start", ""⟩ ["home", "d"]).1.cwd = ["home", "d"] ∧
      (run_submit c9fs ⟨["home"], ⟨false, false, false, false, .name, false⟩⟩
          ⟨[], "start", ""⟩ ["home", "d"]).2.2 = true ∧
      (run_submit c9fs ⟨["home"], ⟨false, false, false, false, .name, false⟩⟩
          ⟨[], "start", ""⟩ ["home", "d"]).2.1.summary =
        "Failed to read " ++ path_display ["home", "d"] ++ ": " ++ "permission denied" :=
  c9_activate_no_rollback c9fs _ _ _ ⟨EntryKind.dir, 0, none, false⟩ "permission denied"
    rfl rfl rfl

/-! ### Aggregation: specification-side counters and the walk lemmas -/

theorem FsTree.sizeOf_pos (t : FsTree) : 1 ≤ sizeOf t := by
  cases t <;> (simp; omega)

/-- Count of non-directory entries accepted by the predicate in a
walked entry list. -/
def walk_files_count (o : ListOptions) (m : Option (String → Bool))
    (w : List (EntryInfo × List String)) : Nat :=
  (w.filter (fun p => !p.1.is_dir && should_print_entry p.1 p.2 o m)).length

/-- Total size of the non-directory entries accepted by the
predicate. -/
def walk_files_bytes (o : ListOptions) (m : Option (String → Bool))
    (w : List (EntryInfo × List String)) : Nat :=
  ((w.filter (fun p => !p.1.is_dir && should_print_entry p.1 p.2 o m)).map
    (fun p => p.1.size)).sum

/-- Count of directory entries accepted by the predicate. -/
def walk_dirs_count (o : ListOptions) (m : Option (String → Bool))
    (w : List (EntryInfo × List String)) : Nat :=
  (w.filter (fun p => p.1.is_dir && should_print_entry p.1 p.2 o m)).length

/-- Count of regular-file entries accepted by the predicate. -/
def walk_reg_count (o : ListOptions) (m : Option (String → Bool))
    (w : List (EntryInfo × List String)) : Nat :=
  (w.filter (fun p => (p.1.kind == EntryKind.regFile) && should_print_entry p.1 p.2 o m)).length

/-- Total size of the regular-file entries accepted by the
predicate. -/
def walk_reg_bytes (o : ListOptions) (m : Option (String → Bool))
    (w : List (EntryInfo × List String)) : Nat :=
  ((w.filter (fun p => (p.1.kind == EntryKind.regFile) && should_print_entry p.1 p.2 o m)).map
    (fun p => p.1.size)).sum

/-- Sum of the per-extension file counters. -/
def ext_files_total (ext : List (String × ExtSummary)) : Nat :=
  (ext.map (fun p => p.2.files)).sum

/-- Sum of the per-extension byte counters. -/
def ext_bytes_total (ext : List (String × ExtSummary)) : Nat :=
  (ext.map (fun p => p.2.bytes)).sum

theorem ext_insert_files_total (m : List (String × ExtSummary)) (key : String) (sz : Nat) :
    ext_files_total (ext_insert m key sz) = ext_files_total m + 1 := by
  induction m with
  | nil => simp [ext_insert, ext_files_total]
  | cons p rest ih =>
    obtain ⟨k, s⟩ := p
    simp only [ext_insert]
    split_ifs with h1 h2 <;> simp [ext_files_total] at ih ⊢ <;> omega

theorem ext_insert_bytes_total (m : List (String × ExtSummary)) (key : String) (sz : Nat) :
    ext_bytes_total (ext_insert m key sz) = ext_bytes_total m + sz := by
  induction m with
  | nil => simp [ext_insert, ext_bytes_total]
  | cons p rest ih =>
    obtain ⟨k, s⟩ := p
    simp only [ext_insert]
    split_ifs with h1 h2 <;> simp [ext_bytes_total] at ih ⊢ <;> omega

theorem add_extension_stat_totals (s : ListingSummary) (e : EntryInfo) :
    (add_extension_stat s e).total_files = s.total_files ∧
      (add_extension_stat s e).total_bytes = s.total_bytes ∧
      (add_extension_stat s e).total_dirs = s.total_dirs := by
  unfold add_extension_stat
  split_ifs <;> simp

theorem add_extension_stat_ext_files (s : ListingSummary) (e : EntryInfo) :
    ext_files_total (add_extension_stat s e).ext =
      ext_files_total s.ext + (if e.kind = EntryKind.regFile then 1 else 0) := by
  unfold add_extension_stat
  by_cases h : e.kind = EntryKind.regFile
  · rw [if_neg (fun hn => hn h), if_pos h]
    simp [ext_insert_files_total]
  · rw [if_pos h, if_neg h]
    simp

theorem add_extension_stat_ext_bytes (s : ListingSummary) (e : EntryInfo) :
    ext_bytes_total (add_extension_stat s e).ext =
      ext_bytes_total s.ext + (if e.kind = EntryKind.regFile then e.size else 0) := by
  unfold add_extension_stat
  by_cases h : e.kind = EntryKind.regFile
  · rw [if_neg (fun hn => hn h), if_pos h]
    simp [ext_insert_bytes_total]
  · rw [if_pos h, if_neg h]
    simp

/-- The body of the enumeration loop of `walk_summary_dir`, applied to
one (non-hidden) entry. -/
def walk_summary_step (o : ListOptions) (m : Option (String → Bool)) (rel : List String)
    (c : FsTree) (s : ListingSummary) : ListingSummary :=
  if c.is_dir then
    let acc := walk_summary_dir o m c.children (rel ++ [c.name]) s
    if should_print_entry c.info (rel ++ [c.name]) o m then
      { acc with total_dirs := acc.total_dirs + 1 }
    else acc
  else if should_print_entry c.info (rel ++ [c.name]) o m then
    add_extension_stat
      { s with
        total_files := s.total_files + 1,
        total_bytes := s.total_bytes + c.info.size }
      c.info
  else s

theorem walk_summary_dir_nil (o : ListOptions) (m : Option (String → Bool))
    (rel : List String) (s : ListingSummary) :
    walk_summary_dir o m [] rel s = s := by
  rw [walk_summary_dir_eq]
  rfl

theorem walk_summary_dir_cons (o : ListOptions) (m : Option (String → Bool))
    (c : FsTree) (cs : List FsTree) (rel : List String) (s : ListingSummary) :
    walk_summary_dir o m (c :: cs) rel s =
      if o.all || !is_hidden c.name then
        walk_summary_dir o m cs rel (walk_summary_step o m rel c s)
      else walk_summary_dir o m cs rel s := by
  rw [walk_summary_dir_eq o m (c :: cs) rel s, walk_summary_dir_eq o m cs rel s,
    walk_summary_dir_eq o m cs rel (walk_summary_step o m rel c s)]
  simp only [read_entries, List.filter_cons]
  by_cases h : (o.all || !is_hidden c.name) = true
  · rw [if_pos h, if_pos h, List.foldl_cons]
    try rfl
  · rw [if_neg h, if_neg h]

theorem walk_entries_nil (all : Bool) (rel : List String) :
    walk_entries all [] rel = [] := by
  rw [walk_entries_eq]
  rfl

theorem walk_entries_cons (all : Bool) (c : FsTree) (cs : List FsTree) (rel : List String) :
    walk_entries all (c :: cs) rel =
      if all || !is_hidden c.name then
        ((c.info, rel ++ [c.name]) ::
            (if c.is_dir then walk_entries all c.children (rel ++ [c.name]) else [])) ++
          walk_entries all cs rel
      else walk_entries all cs rel := by
  rw [walk_entries_eq all (c :: cs) rel, walk_entries_eq all cs rel]
  simp only [read_entries, List.filter_cons]
  by_cases h : (all || !is_hidden c.name) = true
  · rw [if_pos h, if_pos h, List.flatMap_cons]
    try rfl
  · rw [if_neg h, if_neg h]

theorem list_sizeOf_pos {α : Type _} [SizeOf α] (l : List α) : 1 ≤ sizeOf l := by
  cases l <;> (simp; try omega)

theorem EntryInfo.is_dir_iff {e : EntryInfo} : e.is_dir = true ↔ e.kind = EntryKind.dir := by
  simp [EntryInfo.is_dir]

/-- The accumulators of `walk_summary_dir` against the
specification-side counters over `walk_entries`: starting from any
summary, the walk adds exactly the predicate-accepted non-directory
count/bytes to `total_files`/`total_bytes`, the accepted directory
count to `total_dirs`, and the accepted regular-file count/bytes to
the per-extension sums. -/
theorem walk_summary_dir_spec (o : ListOptions) (m : Option (String → Bool)) :
    ∀ (n : Nat) (children : List FsTree), sizeOf children ≤ n →
      ∀ (rel : List String) (s : ListingSummary),
        (walk_summary_dir o m children rel s).total_files =
            s.total_files + walk_files_count o m (walk_entries o.all children rel) ∧
          (walk_summary_dir o m children rel s).total_bytes =
            s.total_bytes + walk_files_bytes o m (walk_entries o.all children rel) ∧
          (walk_summary_dir o m children rel s).total_dirs =
            s.total_dirs + walk_dirs_count o m (walk_entries o.all children rel) ∧
          ext_files_total (walk_summary_dir o m children rel s).ext =
            ext_files_total s.ext + walk_reg_count o m (walk_entries o.all children rel) ∧
          ext_bytes_total (walk_summary_dir o m children rel s).ext =
            ext_bytes_total s.ext + walk_reg_bytes o m (walk_entries o.all children rel) := by
  intro n
  induction n with
  | zero =>
    intro children h
    exfalso
    have := list_sizeOf_pos children
    omega
  | succ n ih =>
    intro children hsize rel s
    cases children with
    | nil =>
      simp [walk_summary_dir_nil, walk_entries_nil, walk_files_count, walk_files_bytes,
        walk_dirs_count, walk_reg_count, walk_reg_bytes]
    | cons c cs =>
      have hposc := FsTree.sizeOf_pos c
      have hposcs := list_sizeOf_pos cs
      have hlist : sizeOf (c :: cs) = 1 + sizeOf c + sizeOf cs := by simp
      have hszc : sizeOf cs ≤ n := by omega
      have hszch : sizeOf c.children ≤ n := by
        have := FsTree.sizeOf_children_le c
        omega
      rw [walk_summary_dir_cons, walk_entries_cons]
      by_cases hkeep : (o.all || !is_hidden c.name) = true
      · rw [if_pos hkeep, if_pos hkeep]
        obtain ⟨ihf, ihb, ihd, ihrf, ihrb⟩ := ih cs hszc rel (walk_summary_step o m rel c s)
        by_cases hdir : c.is_dir = true
        · rw [if_pos hdir]
          obtain ⟨jf, jb, jd, jrf, jrb⟩ := ih c.children hszch (rel ++ [c.name]) s
          have hkind : c.info.kind = EntryKind.dir := by
            rw [FsTree.is_dir] at hdir
            exact EntryInfo.is_dir_iff.mp hdir
          have hinfodir : c.info.is_dir = true := by rw [FsTree.is_dir] at hdir; exact hdir
          by_cases hsp : should_print_entry c.info (rel ++ [c.name]) o m = true
          · have hsf : (walk_summary_step o m rel c s).total_files =
                (walk_summary_dir o m c.children (rel ++ [c.name]) s).total_files := by
              simp [walk_summary_step, hdir, hsp]
            have hsb : (walk_summary_step o m rel c s).total_bytes =
                (walk_summary_dir o m c.children (rel ++ [c.name]) s).total_bytes := by
              simp [walk_summary_step, hdir, hsp]
            have hsd : (walk_summary_step o m rel c s).total_dirs =
                (walk_summary_dir o m c.children (rel ++ [c.name]) s).total_dirs + 1 := by
              simp [walk_summary_step, hdir, hsp]
            have hsrf : ext_files_total (walk_summary_step o m rel c s).ext =
                ext_files_total (walk_summary_dir o m c.children (rel ++ [c.name]) s).ext := by
              simp [walk_summary_step, hdir, hsp]
            have hsrb : ext_bytes_total (walk_summary_step o m rel c s).ext =
                ext_bytes_total (walk_summary_dir o m c.children (rel ++ [c.name]) s).ext := by
              simp [walk_summary_step, hdir, hsp]
            refine ⟨?_, ?_, ?_, ?_, ?_⟩
            · rw [ihf, hsf, jf]
              simp [walk_files_count, List.filter_append, List.filter_cons, hinfodir]
              omega
            · rw [ihb, hsb, jb]
              simp [walk_files_bytes, List.filter_append, List.filter_cons, hinfodir]
              omega
            · rw [ihd, hsd, jd]
              simp [walk_dirs_count, List.filter_append, List.filter_cons, hinfodir, hsp]
              omega
            · rw [ihrf, hsrf, jrf]
              simp [walk_reg_count, List.filter_append, List.filter_cons, hkind]
              omega
            · rw [ihrb, hsrb, jrb]
              simp [walk_reg_bytes, List.filter_append, List.filter_cons, hkind]
              omega
          · have hsf : (walk_summary_step o m rel c s).total_files =
                (walk_summary_dir o m c.children (rel ++ [c.name]) s).total_files := by
              simp [walk_summary_step, hdir, hsp]
            have hsb : (walk_summary_step o m rel c s).total_bytes =
                (walk_summary_dir o m c.children (rel ++ [c.name]) s).total_bytes := by
              simp [walk_summary_step, hdir, hsp]
            have hsd : (walk_summary_step o m rel c s).total_dirs =
                (walk_summary_dir o m c.children (rel ++ [c.name]) s).total_dirs := by
              simp [walk_summary_step, hdir, hsp]
            have hsrf : ext_files_total (walk_summary_step o m rel c s).ext =
                ext_files_total (walk_summary_dir o m c.children (rel ++ [c.name]) s).ext := by
              simp [walk_summary_step, hdir, hsp]
            have hsrb : ext_bytes_total (walk_summary_step o m rel c s).ext =
                ext_bytes_total (walk_summary_dir o m c.children (rel ++ [c.name]) s).ext := by
              simp [walk_summary_step, hdir, hsp]
            refine ⟨?_, ?_, ?_, ?_, ?_⟩
            · rw [ihf, hsf, jf]
              simp [walk_files_count, List.filter_append, List.filter_cons, hinfodir]
              omega
            · rw [ihb, hsb, jb]
              simp [walk_files_bytes, List.filter_append, List.filter_cons, hinfodir]
              omega
            · rw [ihd, hsd, jd]
              simp [walk_dirs_count, List.filter_append, List.filter_cons, hinfodir, hsp]
              omega
            · rw [ihrf, hsrf, jrf]
              simp [walk_reg_count, List.filter_append, List.filter_cons, hkind]
              omega
            · rw [ihrb, hsrb, jrb]
              simp [walk_reg_bytes, List.filter_append, List.filter_cons, hkind]
              omega
        · rw [if_neg hdir]
          have hinfodir : c.info.is_dir = false := by
            rw [FsTree.is_dir] at hdir
            cases h : c.info.is_dir
            · rfl
            · exact absurd h hdir
          by_cases hsp : should_print_entry c.info (rel ++ [c.name]) o m = true
          · have hsf : (walk_summary_step o m rel c s).total_files = s.total_files + 1 := by
              simp [walk_summary_step, hdir, hsp, (add_extension_stat_totals _ _).1]
            have hsb : (walk_summary_step o m rel c s).total_bytes =
                s.total_bytes + c.info.size := by
              simp [walk_summary_step, hdir, hsp, (add_extension_stat_totals _ _).2.1]
            have hsd : (walk_summary_step o m rel c s).total_dirs = s.total_dirs := by
              simp [walk_summary_step, hdir, hsp, (add_extension_stat_totals _ _).2.2]
            have hsrf : ext_files_total (walk_summary_step o m rel c s).ext =
                ext_files_total s.ext +
                  (if c.info.kind = EntryKind.regFile then 1 else 0) := by
              simp [walk_summary_step, hdir, hsp, add_extension_stat_ext_files]
            have hsrb : ext_bytes_total (walk_summary_step o m rel c s).ext =
                ext_bytes_total s.ext +
                  (if c.info.kind = EntryKind.regFile then c.info.size else 0) := by
              simp [walk_summary_step, hdir, hsp, add_extension_stat_ext_bytes]
            refine ⟨?_, ?_, ?_, ?_, ?_⟩
            · rw [ihf, hsf]
              simp [walk_files_count, List.filter_append, List.filter_cons, hinfodir, hsp]
              omega
            · rw [ihb, hsb]
              simp [walk_files_bytes, List.filter_append, List.filter_cons, hinfodir, hsp]
              omega
            · rw [ihd, hsd]
              simp [walk_dirs_count, List.filter_append, List.filter_cons, hinfodir]
            · rw [ihrf, hsrf]
              by_cases hk : c.info.kind = EntryKind.regFile <;>
                (simp [walk_reg_count, List.filter_append, List.filter_cons, hk, hsp];
                  try omega)
            · rw [ihrb, hsrb]
              by_cases hk : c.info.kind = EntryKind.regFile <;>
                (simp [walk_reg_bytes, List.filter_append, List.filter_cons, hk, hsp];
                  try omega)
          · have hstep : walk_summary_step o m rel c s = s := by
              simp [walk_summary_step, hdir, hsp]
            rw [hstep] at ihf ihb ihd ihrf ihrb ⊢
            refine ⟨?_, ?_, ?_, ?_, ?_⟩
            · rw [ihf]
              simp [walk_files_count, List.filter_append, List.filter_cons, hsp]
            · rw [ihb]
              simp [walk_files_bytes, List.filter_append, List.filter_cons, hsp]
            · rw [ihd]
              simp [walk_dirs_count, List.filter_append, List.filter_cons, hsp]
            · rw [ihrf]
              simp [walk_reg_count, List.filter_append, List.filter_cons, hsp]
            · rw [ihrb]
              simp [walk_reg_bytes, List.filter_append, List.filter_cons, hsp]
      · rw [if_neg hkeep, if_neg hkeep]
        exact ih cs hszc rel s

/-- C3 counterexample: in the snapshot `root/{d/ (empty directory),
s (symlink)}` with no filter, the predicate accepts both walked entries
(the count of predicate-true entries over the whole walk is 2), yet
`total_files` is 1 (the directory is counted in `total_dirs`, not
`total_files`) and the per-extension file counters sum to 0 (the
symlink is in `total_files` but never enters `byExtension`), so
neither "total_files = count of predicate-true entries" nor "the
per-extension counts sum to those same totals" holds as stated. -/
theorem c3_counterexample :
    ((walk_entries false [FsTree.dir "d" none [], FsTree.file "s" .symlink 5 none] []).filter
        (fun p => should_print_entry p.1 p.2 ⟨false, false, false, false, .name, false⟩
          none)).length = 2 ∧
      (walk_summary_dir ⟨false, false, false, false, .name, false⟩ none
          [FsTree.dir "d" none [], FsTree.file "s" .symlink 5 none] [] {}).total_files = 1 ∧
      ext_files_total (walk_summary_dir ⟨false, false, false, false, .name, false⟩ none
          [FsTree.dir "d" none [], FsTree.file "s" .symlink 5 none] [] {}).ext = 0 := by
  refine ⟨?_, ?_, ?_⟩ <;>
    simp [walk_entries_cons, walk_entries_nil, walk_summary_dir_cons, walk_summary_dir_nil,
      walk_summary_step, is_hidden, should_print_entry, FsTree.is_dir, FsTree.info,
      FsTree.name, FsTree.children, EntryInfo.is_dir, LeafKind.toEntryKind,
      add_extension_stat, ext_files_total]

/-- C3 (amended): after the aggregation walk, `total_files` equals the
count of NON-DIRECTORY entries accepted by the Filter Predicate across
the whole recursive walk (predicate-accepted directories go to
`total_dirs` instead) and `total_bytes` equals the sum of their sizes;
the per-extension `files`/`bytes` counters sum to the regular-file
portion of those totals (symlinks and other special files are counted
in `total_files` but never appear in `byExtension`); children of
filtered-out directories are still visited and counted, since every
counter ranges over the full recursive walk `walk_entries`, whose
descent never consults the predicate. -/
theorem c3_aggregation_amended (o : ListOptions) (m : Option (String → Bool))
    (root : FsTree) :
    (compute_summary o m root).total_files =
        walk_files_count o m (walk_entries o.all root.children []) ∧
      (compute_summary o m root).total_bytes =
        walk_files_bytes o m (walk_entries o.all root.children []) ∧
      (compute_summary o m root).total_dirs =
        walk_dirs_count o m (walk_entries o.all root.children []) ∧
      ext_files_total (compute_summary o m root).ext =
        walk_reg_count o m (walk_entries o.all root.children []) ∧
      ext_bytes_total (compute_summary o m root).ext =
        walk_reg_bytes o m (walk_entries o.all root.children []) := by
  have h := walk_summary_dir_spec o m (sizeOf root.children) root.children le_rfl [] {}
  simpa [compute_summary, ext_files_total, ext_bytes_total] using h

/-! ### Tree assembly: the ghost-ancestor inclusion rule -/

theorem read_entries_cons (c : FsTree) (cs : List FsTree) (all : Bool) :
    read_entries (c :: cs) all =
      if all || !is_hidden c.name then c :: read_entries cs all
      else read_entries cs all := by
  simp [read_entries, List.filter_cons]

/-- The helper `subtree_has_printables` decides exactly "some entry of the
recursive walk below this directory satisfies the predicate". -/
theorem subtree_has_spec (o : ListOptions) (m : Option (String → Bool)) :
    ∀ (n : Nat) (children : List FsTree), sizeOf children ≤ n → ∀ (rel : List String),
      subtree_has_printables o m children rel =
        (walk_entries o.all children rel).any
          (fun p => should_print_entry p.1 p.2 o m) := by
  intro n
  induction n with
  | zero =>
    intro children h
    exfalso
    have := list_sizeOf_pos children
    omega
  | succ n ih =>
    intro children hsize rel
    cases children with
    | nil =>
      rw [subtree_has_printables_eq, walk_entries_nil]
      rfl
    | cons c cs =>
      have hposc := FsTree.sizeOf_pos c
      have hposcs := list_sizeOf_pos cs
      have hlist : sizeOf (c :: cs) = 1 + sizeOf c + sizeOf cs := by simp
      have hszc : sizeOf cs ≤ n := by omega
      have hszch : sizeOf c.children ≤ n := by
        have := FsTree.sizeOf_children_le c
        omega
      rw [subtree_has_printables_eq, read_entries_cons, walk_entries_cons]
      by_cases hkeep : (o.all || !is_hidden c.name) = true
      · rw [if_pos hkeep, if_pos hkeep, List.any_cons, List.any_append, List.any_cons]
        rw [show (read_entries cs o.all).any (fun x => should_print_entry x.info
              (rel ++ [x.name]) o m ||
            (x.is_dir && subtree_has_printables o m x.children (rel ++ [x.name]))) =
            subtree_has_printables o m cs rel from (subtree_has_printables_eq o m cs rel).symm]
        rw [ih cs hszc rel, ih c.children hszch (rel ++ [c.name])]
        by_cases hdir : c.is_dir = true
        · rw [if_pos hdir, hdir]
          simp [Bool.or_assoc]
        · have hdirf : c.is_dir = false := by
            cases h : c.is_dir
            · rfl
            · exact absurd h hdir
          rw [if_neg hdir, hdirf]
          simp
      · rw [if_neg hkeep, if_neg hkeep]
        rw [show (read_entries cs o.all).any (fun x => should_print_entry x.info
              (rel ++ [x.name]) o m ||
            (x.is_dir && subtree_has_printables o m x.children (rel ++ [x.name]))) =
            subtree_has_printables o m cs rel from (subtree_has_printables_eq o m cs rel).symm]
        exact ih cs hszc rel

/-- Fuel-free form of `subtree_has_spec`. -/
theorem subtree_has_printables_spec (o : ListOptions) (m : Option (String → Bool))
    (children : List FsTree) (rel : List String) :
    subtree_has_printables o m children rel =
      (walk_entries o.all children rel).any (fun p => should_print_entry p.1 p.2 o m) :=
  subtree_has_spec o m (sizeOf children) children le_rfl rel

/-- Every entry emitted by `collect_tree_children` lies strictly below
the directory being assembled: its relative path extends `rel` by at
least one component. -/
theorem collect_rel_suffix (o : ListOptions) (m : Option (String → Bool)) :
    ∀ (n : Nat) (children : List FsTree), sizeOf children ≤ n →
      ∀ (rel : List String) (anc : List Bool) (d : DisplayEntry),
        d ∈ collect_tree_children o m children rel anc →
        ∃ suf : List String, suf ≠ [] ∧ d.rel_path = rel ++ suf := by
  intro n
  induction n with
  | zero =>
    intro children h
    exfalso
    have := list_sizeOf_pos children
    omega
  | succ n ih =>
    intro children hsize rel anc d hd
    rw [collect_tree_children_eq, List.mem_flatMap] at hd
    obtain ⟨p, hp, hdp⟩ := hd
    have hpc : p.2 ∈ tree_printable_children o m children rel := mem_of_mem_enum hp
    rcases List.mem_cons.mp hdp with h | h
    · exact ⟨[p.2.name], by simp, by rw [h]⟩
    · by_cases hdir : p.2.is_dir = true
      · rw [if_pos hdir] at h
        have hsz2 : sizeOf p.2.children ≤ n := by
          have h1 := List.sizeOf_lt_of_mem (mem_of_tree_printable hpc)
          have h2 := FsTree.sizeOf_children_le p.2
          omega
        obtain ⟨suf, hne, hrel⟩ := ih p.2.children hsz2 (rel ++ [p.2.name]) _ d h
        refine ⟨p.2.name :: suf, by simp, ?_⟩
        rw [hrel]
        simp
      · rw [if_neg hdir] at h
        simp at h

/-- Membership of a child's display line in the assembled output, at
the child's own level, is exactly the per-child inclusion test —
provided the enumerated names are distinct, as they are for any real
directory. -/
theorem collect_level_mem (o : ListOptions) (m : Option (String → Bool))
    (children : List FsTree) (rel : List String) (anc : List Bool) (c : FsTree)
    (hnd : ((read_entries children o.all).map FsTree.name).Nodup)
    (hc : c ∈ read_entries children o.all) :
    (∃ d ∈ collect_tree_children o m children rel anc, d.rel_path = rel ++ [c.name]) ↔
      tree_child_included o m c (rel ++ [c.name]) = true := by
  constructor
  · rintro ⟨d, hd, hrel⟩
    rw [collect_tree_children_eq, List.mem_flatMap] at hd
    obtain ⟨p, hp, hdp⟩ := hd
    have hpc : p.2 ∈ tree_printable_children o m children rel := mem_of_mem_enum hp
    rcases List.mem_cons.mp hdp with h | h
    · have hname : p.2.name = c.name := by
        rw [h] at hrel
        simp only [DisplayEntry.rel_path] at hrel
        have := List.append_cancel_left hrel
        exact (List.cons.injEq _ _ _ _ ▸ this).1
      have hpread : p.2 ∈ read_entries children o.all := by
        have h1 := List.mem_of_mem_filter hpc
        rw [sort_trees, List.mem_insertionSort] at h1
        exact h1
      have hpc2 : p.2 = c := List.inj_on_of_nodup_map hnd hpread hc hname
      have hincl := (List.mem_filter.mp hpc).2
      rw [hpc2] at hincl
      exact hincl
    · exfalso
      by_cases hdir : p.2.is_dir = true
      · rw [if_pos hdir] at h
        obtain ⟨suf, hne, hsuf⟩ := collect_rel_suffix o m (sizeOf p.2.children)
          p.2.children le_rfl (rel ++ [p.2.name]) _ d h
        rw [hsuf, List.append_assoc] at hrel
        have := List.append_cancel_left hrel
        have hlen := congrArg List.length this
        simp at hlen
        exact hne hlen
      · rw [if_neg hdir] at h
        simp at h
  · intro hinc
    have hcs : c ∈ sort_trees o (read_entries children o.all) := by
      rw [sort_trees, List.mem_insertionSort]
      exact hc
    have hcp : c ∈ tree_printable_children o m children rel := by
      rw [tree_printable_children, List.mem_filter]
      exact ⟨hcs, hinc⟩
    obtain ⟨i, hi⟩ := List.mem_iff_getElem?.mp hcp
    have hienum : ((i, c) : Nat × FsTree) ∈
        (tree_printable_children o m children rel).enum :=
      List.mem_enum_iff_getElem?.mpr hi
    refine ⟨⟨c.info, tree_prefix_string anc
        (i + 1 == (tree_printable_children o m children rel).length), rel ++ [c.name]⟩,
      ?_, rfl⟩
    rw [collect_tree_children_eq, List.mem_flatMap]
    exact ⟨(i, c), hienum, List.mem_cons_self _ _⟩

/-- The per-child inclusion test spelled out as the ghost-ancestor
formula of the specification: direct predicate satisfaction, or a
directory (with only-files unset) some of whose walked descendants
satisfy the predicate. -/
theorem tree_child_included_iff (o : ListOptions) (m : Option (String → Bool))
    (c : FsTree) (crel : List String) :
    tree_child_included o m c crel = true ↔
      (should_print_entry c.info crel o m = true ∨
        (c.is_dir = true ∧ o.only_files = false ∧
          (walk_entries o.all c.children crel).any
            (fun p => should_print_entry p.1 p.2 o m) = true)) := by
  unfold tree_child_included
  rw [← subtree_has_spec o m (sizeOf c.children) c.children le_rfl crel]
  by_cases hdir : c.is_dir = true
  · rw [if_pos hdir, hdir]
    cases hof : o.only_files <;> cases hsp : should_print_entry c.info crel o m <;>
      simp [hof, hsp]
  · have hdirf : c.is_dir = false := by
      cases h : c.is_dir
      · rfl
      · exact absurd h hdir
    rw [if_neg hdir, hdirf]
    simp

/-- The filter of the C1 example: matches exactly the relative path
`a/b.txt`, i.e. only the entry `b.txt`. -/
def exMatcher : String → Bool := fun s => s == "a/b.txt"

/-- Options of the C1 example: tree mode, everything else off. -/
def exOpts : ListOptions := ⟨false, true, false, false, SortKey.name, false⟩

/-- The tree `root/{a/{b.txt}, c.txt}` of the C1 example. -/
def exTree : FsTree := FsTree.dir "root" none
  [FsTree.dir "a" none [FsTree.file "b.txt" .regFile 1 none],
   FsTree.file "c.txt" .regFile 2 none]

/-- C1: in hierarchical (tree) mode a child enumerated during assembly
has its display line in the output if and only if it directly
satisfies the Filter Predicate, or it is a directory, only-files is
not set, and some descendant at any depth of the recursive walk below
it satisfies the predicate (the ghost-ancestor rule
`include = predicate(child) || (child.isDir && !onlyFiles && subtreeHasMatch(child))`);
the distinct-names hypothesis states that the directory's enumerated
entry names are pairwise distinct, as is true of any real directory.
In particular, for the tree `root/{a/{b.txt}, c.txt}` with a filter
matching only `b.txt`, assembly emits exactly `root`, `a` and `b.txt`
(with their tree glyphs and relative paths) and excludes `c.txt`. -/
theorem c1_ghost_ancestor_inclusion :
    (∀ (o : ListOptions) (m : Option (String → Bool)) (children : List FsTree)
        (rel : List String) (anc : List Bool) (c : FsTree),
        ((read_entries children o.all).map FsTree.name).Nodup →
        c ∈ read_entries children o.all →
        ((∃ d ∈ collect_tree_children o m children rel anc,
            d.rel_path = rel ++ [c.name]) ↔
          (should_print_entry c.info (rel ++ [c.name]) o m = true ∨
            (c.is_dir = true ∧ o.only_files = false ∧
              (walk_entries o.all c.children (rel ++ [c.name])).any
                (fun p => should_print_entry p.1 p.2 o m) = true)))) ∧
    build_display_entries_for_dir exOpts (some exMatcher) exTree =
      [⟨⟨"root", .dir, 0, none⟩, "", ["."]⟩,
       ⟨⟨"a", .dir, 0, none⟩, "└── ", ["a"]⟩,
       ⟨⟨"b.txt", .regFile, 1, none⟩, "    └── ", ["a", "b.txt"]⟩] := by
  constructor
  · intro o m children rel anc c hnd hc
    rw [collect_level_mem o m children rel anc c hnd hc]
    exact tree_child_included_iff o m c (rel ++ [c.name])
  · have hsub : subtree_has_printables exOpts (some exMatcher)
        [FsTree.file "b.txt" .regFile 1 none] ["a"] = true := by
      rw [subtree_has_printables_eq]
      rfl
    have hia : tree_child_included exOpts (some exMatcher)
        (FsTree.dir "a" none [FsTree.file "b.txt" .regFile 1 none]) ["a"] = true := by
      unfold tree_child_included
      simp [FsTree.is_dir, FsTree.info, EntryInfo.is_dir, FsTree.children, exOpts]
      exact Or.inr hsub
    have hic : tree_child_included exOpts (some exMatcher)
        (FsTree.file "c.txt" .regFile 2 none) ["c.txt"] = false := by
      unfold tree_child_included
      simp [FsTree.is_dir, FsTree.info, EntryInfo.is_dir, FsTree.children]
      decide
    have hib : tree_child_included exOpts (some exMatcher)
        (FsTree.file "b.txt" .regFile 1 none) ["a", "b.txt"] = true := by
      unfold tree_child_included
      simp [FsTree.is_dir, FsTree.info, EntryInfo.is_dir, FsTree.children]
      decide
    have hprint1 : tree_printable_children exOpts (some exMatcher)
        [FsTree.dir "a" none [FsTree.file "b.txt" .regFile 1 none],
         FsTree.file "c.txt" .regFile 2 none] [] =
        [FsTree.dir "a" none [FsTree.file "b.txt" .regFile 1 none]] := by
      rw [tree_printable_children]
      rw [show sort_trees exOpts (read_entries
          [FsTree.dir "a" none [FsTree.file "b.txt" .regFile 1 none],
           FsTree.file "c.txt" .regFile 2 none] exOpts.all) =
          [FsTree.dir "a" none [FsTree.file "b.txt" .regFile 1 none],
           FsTree.file "c.txt" .regFile 2 none] from rfl]
      rw [List.filter_cons, List.filter_cons, List.filter_nil]
      simp [FsTree.name, hia, hic]
    have hprint2 : tree_printable_children exOpts (some exMatcher)
        [FsTree.file "b.txt" .regFile 1 none] ["a"] =
        [FsTree.file "b.txt" .regFile 1 none] := by
      rw [tree_printable_children]
      rw [show sort_trees exOpts (read_entries
          [FsTree.file "b.txt" .regFile 1 none] exOpts.all) =
          [FsTree.file "b.txt" .regFile 1 none] from rfl]
      rw [List.filter_cons, List.filter_nil]
      simp [FsTree.name, hib]
    rw [show build_display_entries_for_dir exOpts (some exMatcher) exTree =
        ⟨exTree.info, "", ["."]⟩ ::
          collect_tree_children exOpts (some exMatcher) exTree.children [] [] from by
      rw [build_display_entries_for_dir]
      rfl]
    rw [show exTree.children =
        [FsTree.dir "a" none [FsTree.file "b.txt" .regFile 1 none],
         FsTree.file "c.txt" .regFile 2 none] from rfl]
    rw [collect_tree_children_eq, hprint1]
    simp only [List.enum_cons, List.enum_nil, List.flatMap_cons, List.flatMap_nil,
      List.enumFrom]
    rw [show FsTree.is_dir (FsTree.dir "a" none [FsTree.file "b.txt" .regFile 1 none]) =
        true from rfl, if_pos rfl]
    rw [show FsTree.children (FsTree.dir "a" none [FsTree.file "b.txt" .regFile 1 none]) =
        [FsTree.file "b.txt" .regFile 1 none] from rfl,
      show FsTree.name (FsTree.dir "a" none [FsTree.file "b.txt" .regFile 1 none]) =
        "a" from rfl]
    simp only [List.nil_append]
    rw [collect_tree_children_eq, hprint2]
    simp only [List.enum_cons, List.enum_nil, List.flatMap_cons, List.flatMap_nil,
      List.enumFrom]
    rw [show FsTree.is_dir (FsTree.file "b.txt" .regFile 1 none) = false from rfl,
      if_neg (by decide)]
    decide

/-- Witness for C1 at the example tree: at the root level of
`root/{a/{b.txt}, c.txt}` the inclusion equivalence is applied to the
child `a` (names `["a", "c.txt"]` are distinct), and the equivalence
instance is stated closed. -/
theorem c1_ghost_ancestor_inclusion_witness :
    (∃ d ∈ collect_tree_children exOpts (some exMatcher)
        [FsTree.dir "a" none [FsTree.file "b.txt" .regFile 1 none],
         FsTree.file "c.txt" .regFile 2 none] [] [],
        d.rel_path = [] ++ [(FsTree.dir "a" none
          [FsTree.file "b.txt" .regFile 1 none]).name]) ↔
      (should_print_entry (FsTree.dir "a" none
            [FsTree.file "b.txt" .regFile 1 none]).info
          ([] ++ [(FsTree.dir "a" none [FsTree.file "b.txt" .regFile 1 none]).name])
          exOpts (some exMatcher) = true ∨
        ((FsTree.dir "a" none [FsTree.file "b.txt" .regFile 1 none]).is_dir = true ∧
          exOpts.only_files = false ∧
          (walk_entries exOpts.all
              (FsTree.dir "a" none [FsTree.file "b.txt" .regFile 1 none]).children
              ([] ++ [(FsTree.dir "a" none
                [FsTree.file "b.txt" .regFile 1 none]).name])).any
            (fun p => should_print_entry p.1 p.2 exOpts (some exMatcher)) = true)) :=
  c1_ghost_ancestor_inclusion.1 exOpts (some exMatcher)
    [FsTree.dir "a" none [FsTree.file "b.txt" .regFile 1 none],
     FsTree.file "c.txt" .regFile 2 none] [] []
    (FsTree.dir "a" none [FsTree.file "b.txt" .regFile 1 none])
    (by
      rw [show read_entries
          [FsTree.dir "a" none [FsTree.file "b.txt" .regFile 1 none],
           FsTree.file "c.txt" .regFile 2 none] exOpts.all =
          [FsTree.dir "a" none [FsTree.file "b.txt" .regFile 1 none],
           FsTree.file "c.txt" .regFile 2 none] from rfl]
      decide)
    (by
      rw [show read_entries
          [FsTree.dir "a" none [FsTree.file "b.txt" .regFile 1 none],
           FsTree.file "c.txt" .regFile 2 none] exOpts.all =
          [FsTree.dir "a" none [FsTree.file "b.txt" .regFile 1 none],
           FsTree.file "c.txt" .regFile 2 none] from rfl]
      exact List.mem_cons_self _ _)

end Lz
